import Mathlib

/-!
Shallow embedding of the cogger COG rewriting engine (package `cogger`):
the IFD data model, the structure planner (`computeStructure`), the offset
computer (`computeImageryOffsets`), the tile interleaver (`ifdInterlacing`,
`tiles`), the writer's directory/header/tile emission, and the multi-file
loader (`loadMultipleTIFFs`).  Machine integers are modelled as `Nat`
(`Int` for Go `int` values that can be negative); the single point where
32-bit overflow matters — the BigTIFF promotion check — uses the explicit
bound `2^32 - 1` exactly as the Go code compares `dataOffset` against
`^uint32(0)`.  Go slice reads out of range (which panic at runtime) are
modelled as the default value 0; all theorems that depend on indices are
stated under the data-model invariants that make every access in range.
-/

set_option maxRecDepth 8000

namespace Cogger

/-- Little-endian byte list of the low 32 bits of `v`, as produced by
`binary.LittleEndian.PutUint32` in Go. -/
def le32 (v : Nat) : List Nat :=
  [v % 256, v / 256 % 256, v / 65536 % 256, v / 16777216 % 256]

/-- Two-byte encoding of the low 16 bits of `v`; `le = true` is
little-endian ("II" files), `le = false` big-endian ("MM" files). -/
def put16 (le : Bool) (v : Nat) : List Nat :=
  if le then [v % 256, v / 256 % 256] else [v / 256 % 256, v % 256]

/-- Four-byte encoding of the low 32 bits of `v` in the given byte order. -/
def put32 (le : Bool) (v : Nat) : List Nat :=
  if le then le32 v else (le32 v).reverse

/-- Eight-byte encoding of the low 64 bits of `v` in the given byte order. -/
def put64 (le : Bool) (v : Nat) : List Nat :=
  let b := [v % 256, v / 256 % 256, v / 65536 % 256, v / 16777216 % 256,
    v / 4294967296 % 256, v / 1099511627776 % 256,
    v / 281474976710656 % 256, v / 72057594037927936 % 256]
  if le then b else b.reverse

/-- Decode a 4-byte list back to the 32-bit value it encodes. -/
def get32 (le : Bool) (l : List Nat) : Nat :=
  let b := if le then l else l.reverse
  b.getD 0 0 + 256 * b.getD 1 0 + 65536 * b.getD 2 0 + 16777216 * b.getD 3 0

/-- Decode an 8-byte list back to the 64-bit value it encodes. -/
def get64 (le : Bool) (l : List Nat) : Nat :=
  let b := if le then l else l.reverse
  b.getD 0 0 + 256 * b.getD 1 0 + 65536 * b.getD 2 0 + 16777216 * b.getD 3 0 +
    4294967296 * b.getD 4 0 + 1099511627776 * b.getD 5 0 +
    281474976710656 * b.getD 6 0 + 72057594037927936 * b.getD 7 0

/-- The GDAL ghost block written when the main IFD has no mask (Go constant
`ghost` in cog.go, a raw string literal). -/
def ghost : String :=
  "GDAL_STRUCTURAL_METADATA_SIZE=000140 bytes\nLAYOUT=IFDS_BEFORE_DATA\nBLOCK_ORDER=ROW_MAJOR\nBLOCK_LEADER=SIZE_AS_UINT4\nBLOCK_TRAILER=LAST_4_BYTES_REPEATED\nKNOWN_INCOMPATIBLE_EDITION=NO\n  "

/-- The GDAL ghost block written when the main IFD has a mask (Go constant
`ghostmask` in cog.go). -/
def ghostmask : String :=
  "GDAL_STRUCTURAL_METADATA_SIZE=000174 bytes\nLAYOUT=IFDS_BEFORE_DATA\nBLOCK_ORDER=ROW_MAJOR\nBLOCK_LEADER=SIZE_AS_UINT4\nBLOCK_TRAILER=LAST_4_BYTES_REPEATED\nKNOWN_INCOMPATIBLE_EDITION=NO\n MASK_INTERLEAVED_WITH_IMAGERY=YES\n"

/-- One TIFF image file directory, mirroring the Go `IFD` struct field for
field.  Scalar tags are `Nat` (Go unsigned ints), array tags are lists;
float-valued tags (`ModelPixelScaleTag`, ...) carry opaque 64-bit payloads
whose values never matter to the engine, so they are kept as `List Nat` of
bit patterns.  `planarInterleaving` is the unexported Go field of the same
name; plane indices are `Int` because the Go code stores `int` and the
validation rejects negative entries. -/
structure IFDData where
  SubfileType : Nat := 0
  ImageWidth : Nat := 0
  ImageHeight : Nat := 0
  BitsPerSample : List Nat := []
  Compression : Nat := 0
  PhotometricInterpretation : Nat := 0
  DocumentName : String := ""
  SamplesPerPixel : Nat := 0
  PlanarConfiguration : Nat := 0
  DateTime : String := ""
  Predictor : Nat := 0
  Colormap : List Nat := []
  TileWidth : Nat := 0
  TileHeight : Nat := 0
  TileByteCounts : List Nat := []
  ExtraSamples : List Nat := []
  SampleFormat : List Nat := []
  JPEGTables : List Nat := []
  ModelPixelScaleTag : List Nat := []
  ModelTiePointTag : List Nat := []
  ModelTransformationTag : List Nat := []
  GeoKeyDirectoryTag : List Nat := []
  GeoDoubleParamsTag : List Nat := []
  GeoAsciiParamsTag : String := ""
  GDALMetaData : String := ""
  NoData : String := ""
  LERCParams : List Nat := []
  RPCs : List Nat := []
  planarInterleaving : List (List Int) := []
  deriving Repr, DecidableEq

instance : Inhabited IFDData := ⟨{}⟩

/-- The IFD tree handed to `RewriteIFDTree`: a main IFD with optional mask
and its overviews (sorted largest to smallest), each with an optional
mask.  This flattens the Go pointer structure `IFD.mask` /
`IFD.overviews` into a value. -/
structure IFDTree where
  main : IFDData
  mainMask : Option IFDData := none
  overviews : List (IFDData × Option IFDData) := []
  deriving Repr, DecidableEq

/-- Number of tile columns, Go `(*IFD).nTilesX`. -/
def nTilesX (d : IFDData) : Nat :=
  (d.ImageWidth + d.TileWidth - 1) / d.TileWidth

/-- Number of tile rows, Go `(*IFD).nTilesY`. -/
def nTilesY (d : IFDData) : Nat :=
  (d.ImageHeight + d.TileHeight - 1) / d.TileHeight

/-- Number of planes, Go `(*IFD).nPlanes`: `SamplesPerPixel` when
`PlanarConfiguration == 2`, otherwise 1. -/
def nPlanes (d : IFDData) : Nat :=
  if d.PlanarConfiguration = 2 then d.SamplesPerPixel else 1

/-- Linear tile index, Go `(*IFD).tileIdx`: `nx*ny*plane + y*nx + x`.  The
plane is an `Int` because it originates from the `planarInterleaving`
entries. -/
def tileIdx (d : IFDData) (x y : Nat) (plane : Int) : Int :=
  (nTilesX d : Int) * (nTilesY d : Int) * plane + (y : Int) * (nTilesX d : Int) + (x : Int)

/-- Byte count of the tile at linear index `idx`, Go `(*IFD).tileLen`.
A Go out-of-range access panics; it is modelled as 0 here and all claims
are settled under invariants keeping every access in range. -/
def tileLen (d : IFDData) (idx : Int) : Nat :=
  if 0 ≤ idx then d.TileByteCounts.getD idx.toNat 0 else 0

/-- Size of a classic-TIFF SHORT[]-typed directory entry including its
overflow payload, specialising Go `arrayFieldSize` to `[]uint16`. -/
def afsShort (big : Bool) (l : List Nat) : Nat :=
  if big then (if l.length ≤ 4 then 20 else 20 + 2 * l.length)
  else (if l.length ≤ 2 then 12 else 12 + 2 * l.length)

/-- `arrayFieldSize` for `[]byte`. -/
def afsByte (big : Bool) (l : List Nat) : Nat :=
  if big then (if l.length ≤ 8 then 20 else 20 + l.length)
  else (if l.length ≤ 4 then 12 else 12 + l.length)

/-- `arrayFieldSize` for `[]uint32`. -/
def afsLong (big : Bool) (l : List Nat) : Nat :=
  if big then (if l.length ≤ 2 then 20 else 20 + 4 * l.length)
  else (if l.length ≤ 1 then 12 else 12 + 4 * l.length)

/-- `arrayFieldSize` for `[]uint64`: in classic TIFF a LONG8 array always
overflows. -/
def afsLong8 (big : Bool) (l : List Nat) : Nat :=
  if big then (if l.length ≤ 1 then 20 else 20 + 8 * l.length)
  else 12 + 8 * l.length

/-- `arrayFieldSize` for `[]float64`: like LONG8. -/
def afsDouble (big : Bool) (l : List Nat) : Nat :=
  if big then (if l.length ≤ 1 then 20 else 20 + 8 * l.length)
  else 12 + 8 * l.length

/-- `arrayFieldSize` for `string`: the trailing NUL is included in the
payload, so a string of length ≤ 7 (big) / ≤ 3 (classic) stays inline. -/
def afsAscii (big : Bool) (s : String) : Nat :=
  if big then (if s.length ≤ 7 then 20 else 20 + s.length + 1)
  else (if s.length ≤ 3 then 12 else 12 + s.length + 1)

/-- Go `arrayFieldSize32`: the entry size when a `[]uint64` value is
written as a LONG (u32) array. -/
def arrayFieldSize32 (big : Bool) (l : List Nat) : Nat :=
  if big then (if l.length ≤ 2 then 20 else 20 + 4 * l.length)
  else (if l.length ≤ 1 then 12 else 12 + 4 * l.length)

/-- Result of Go `(*cog).computeStructure` for one IFD: the emitted tag
count, the directory byte size (`tagSize`, including the per-directory
overflow area), and the strile-array overflow byte size (`strileSize`). -/
structure StructInfo where
  ntags : Nat
  tagSize : Nat
  strileSize : Nat
  deriving Repr, DecidableEq

/-- Increment the tag count and directory size by one entry of `sz`
bytes, leaving `strileSize` unchanged; helper for `computeStructure`'s
`ifd.ntags++; ifd.tagSize += ...` pairs. -/
def bumpTag (s : StructInfo) (sz : Nat) : StructInfo :=
  ⟨s.ntags + 1, s.tagSize + sz, s.strileSize⟩

/-- Increment the tag count, directory size and strile size; helper for
the two `TileByteCounts` blocks of `computeStructure`. -/
def bumpStrile (s : StructInfo) (sz strile : Nat) : StructInfo :=
  ⟨s.ntags + 1, s.tagSize + sz, s.strileSize + strile⟩

/-- Go `(*cog).computeStructure`, translated condition for condition in
source order.  `ts` is the fixed entry size (12 classic / 20 BigTIFF); the
base `tagSize` is field count plus next-IFD pointer (6 classic / 16
BigTIFF).  The two `TileByteCounts`-guarded blocks account for tag 324
(offsets: LONG8 when BigTIFF, LONG otherwise) and tag 325 (byte counts:
always written as LONG), whose payloads go to `strileSize`. -/
def computeStructure (big : Bool) (d : IFDData) : StructInfo :=
  let ts := if big then 20 else 12
  let s0 : StructInfo := ⟨0, if big then 16 else 6, 0⟩
  let s1 : StructInfo := if 0 < d.SubfileType then bumpTag s0 ts else s0
  let s2 : StructInfo := if 0 < d.ImageWidth then bumpTag s1 ts else s1
  let s3 : StructInfo := if 0 < d.ImageHeight then bumpTag s2 ts else s2
  let s4 : StructInfo := if d.BitsPerSample ≠ [] then bumpTag s3 (afsShort big d.BitsPerSample) else s3
  let s5 : StructInfo := if 0 < d.Compression then bumpTag s4 ts else s4
  let s6 : StructInfo := bumpTag s5 ts
  let s7 : StructInfo := if d.DocumentName ≠ "" then bumpTag s6 (afsAscii big d.DocumentName) else s6
  let s8 : StructInfo := if 0 < d.SamplesPerPixel then bumpTag s7 ts else s7
  let s9 : StructInfo := if 0 < d.PlanarConfiguration then bumpTag s8 ts else s8
  let s10 : StructInfo := if d.DateTime ≠ "" then bumpTag s9 (afsAscii big d.DateTime) else s9
  let s11 : StructInfo := if 0 < d.Predictor then bumpTag s10 ts else s10
  let s12 : StructInfo := if d.Colormap ≠ [] then bumpTag s11 (afsShort big d.Colormap) else s11
  let s13 : StructInfo := if 0 < d.TileWidth then bumpTag s12 ts else s12
  let s14 : StructInfo := if 0 < d.TileHeight then bumpTag s13 ts else s13
  let s15 : StructInfo := if d.TileByteCounts ≠ [] then
      bumpStrile s14 ts (if big then afsLong8 big d.TileByteCounts - ts
        else arrayFieldSize32 big d.TileByteCounts - ts)
    else s14
  let s16 : StructInfo := if d.TileByteCounts ≠ [] then
      bumpStrile s15 ts (arrayFieldSize32 big d.TileByteCounts - ts)
    else s15
  let s17 : StructInfo := if d.ExtraSamples ≠ [] then bumpTag s16 (afsShort big d.ExtraSamples) else s16
  let s18 : StructInfo := if d.SampleFormat ≠ [] then bumpTag s17 (afsShort big d.SampleFormat) else s17
  let s19 : StructInfo := if d.JPEGTables ≠ [] then bumpTag s18 (afsByte big d.JPEGTables) else s18
  let s20 : StructInfo := if d.ModelPixelScaleTag ≠ [] then bumpTag s19 (afsDouble big d.ModelPixelScaleTag) else s19
  let s21 : StructInfo := if d.ModelTiePointTag ≠ [] then bumpTag s20 (afsDouble big d.ModelTiePointTag) else s20
  let s22 : StructInfo := if d.ModelTransformationTag ≠ [] then bumpTag s21 (afsDouble big d.ModelTransformationTag) else s21
  let s23 : StructInfo := if d.GeoKeyDirectoryTag ≠ [] then bumpTag s22 (afsShort big d.GeoKeyDirectoryTag) else s22
  let s24 : StructInfo := if d.GeoDoubleParamsTag ≠ [] then bumpTag s23 (afsDouble big d.GeoDoubleParamsTag) else s23
  let s25 : StructInfo := if d.GeoAsciiParamsTag ≠ "" then bumpTag s24 (afsAscii big d.GeoAsciiParamsTag) else s24
  let s26 : StructInfo := if d.GDALMetaData ≠ "" then bumpTag s25 (afsAscii big d.GDALMetaData) else s25
  let s27 : StructInfo := if d.NoData ≠ "" then bumpTag s26 (afsAscii big d.NoData) else s26
  let s28 : StructInfo := if d.LERCParams ≠ [] then bumpTag s27 (afsLong big d.LERCParams) else s27
  let s29 : StructInfo := if d.RPCs ≠ [] then bumpTag s28 (afsDouble big d.RPCs) else s28
  s29

example : (computeStructure false
    { ImageWidth := 8, ImageHeight := 8, TileWidth := 8, TileHeight := 8,
      TileByteCounts := [10] }).tagSize = 90 := by decide

example : ghost.length = 184 := rfl

example : ghostmask.length = 217 := rfl

/-- One pass of the validation loop of Go `(*IFD).SetPlanarInterleaving`:
walk the flattened entries, rejecting an entry that is negative, at least
`n`, or already seen, and marking the seen entries in `check`. -/
def markEntries (n : Nat) : List Int → List Bool → Except String (List Bool)
  | [], check => .ok check
  | l2 :: rest, check =>
    if l2 < 0 ∨ (n : Int) ≤ l2 ∨ check.getD l2.toNat false then
      .error "invalid/duplicate entry"
    else
      markEntries n rest (check.set l2.toNat true)

/-- Go `(*IFD).SetPlanarInterleaving`: only valid on
`PLANARCONFIG_SEPARATE` (PlanarConfiguration 2) IFDs; every index in
`0 .. SamplesPerPixel-1` (plus the mask index `SamplesPerPixel` when a
mask is attached, signalled by `hasMask`) must appear exactly once. -/
def SetPlanarInterleaving (d : IFDData) (hasMask : Bool) (pi : List (List Int)) :
    Except String IFDData :=
  if d.PlanarConfiguration ≠ 2 then .error "ifd is not PLANARCONFIG_SEPARATE"
  else
    let n := d.SamplesPerPixel + (if hasMask then 1 else 0)
    match markEntries n pi.flatten (List.replicate n false) with
    | .error e => .error e
    | .ok check =>
      if check.all (· = true) then
        .ok { d with planarInterleaving := d.planarInterleaving ++ pi }
      else .error "missing entry"

/-- Go `(*IFD).setDefaultPlanarInterleaving`: a no-op when an interleaving
is already set; single-plane IFDs get `[[0]]` (or `[[0,1]]` with a mask);
multi-plane IFDs get the single group `[[0, 1, ..., n-1]]` via
`SetPlanarInterleaving` (which cannot fail there, mirrored by keeping `d`
on the impossible error branch where Go panics). -/
def setDefaultPlanarInterleaving (d : IFDData) (hasMask : Bool) : IFDData :=
  if d.planarInterleaving ≠ [] then d
  else if nPlanes d = 1 then
    if hasMask then { d with planarInterleaving := [[0, 1]] }
    else { d with planarInterleaving := [[0]] }
  else
    let n := d.SamplesPerPixel + (if hasMask then 1 else 0)
    match SetPlanarInterleaving d hasMask [(List.range n).map (Int.ofNat ·)] with
    | .ok d2 => d2
    | .error _ => d

/-- One element of the sequence built by Go `(*cog).ifdInterlacing`: an
imagery IFD together with the mask that will be interleaved with it, and
the tree level it came from (0 = main, `j+1` = `overviews[j]`). -/
structure Entry where
  lvl : Nat
  ifd : IFDData
  mask : Option IFDData
  deriving Repr, DecidableEq

/-- The overview part of `ifdInterlacing` in tree order, tagging each
overview with its level `j+1`; `hm` is `cog.ifd.mask != nil`, which gates
whether the overview masks are interleaved at all. -/
def ovrEntriesFrom (hm : Bool) : Nat → List (IFDData × Option IFDData) → List Entry
  | _, [] => []
  | j, (o, om) :: rest => ⟨j + 1, o, if hm then om else none⟩ :: ovrEntriesFrom hm (j + 1) rest

/-- Go `(*cog).ifdInterlacing`: the per-level emission order — overviews
from smallest (last of the tree list) to largest, then the main IFD —
with each level's mask carried alongside when the main IFD has a mask. -/
def ifdInterlacing (t : IFDTree) : List Entry :=
  let hm := t.mainMask.isSome
  (ovrEntriesFrom hm 0 t.overviews).reverse ++
    [⟨0, t.main, if hm then t.mainMask else none⟩]

/-- One tile reference produced by the interleaver, Go `tile`: the level
and mask flag identify the IFD (`tile.ifd`), and `plane` is 0 for mask
tiles just as the Go code emits `plane: 0` for them. -/
structure TileRef where
  lvl : Nat
  isMask : Bool
  x : Nat
  y : Nat
  plane : Int
  deriving Repr, DecidableEq

/-- The mask index computed at the top of the per-entry loop of Go
`(*cog).tiles`: `SamplesPerPixel` for separate-plane imagery, 1
otherwise, -1 when the entry carries no mask. -/
def entryMaskIdx (e : Entry) : Int :=
  match e.mask with
  | some _ => if e.ifd.PlanarConfiguration = 2 then (e.ifd.SamplesPerPixel : Int) else 1
  | none => -1

/-- One tile sent on the channel by Go `(*cog).tiles`: the mask tile
(plane 0 of the mask IFD) when the interleaving index is the mask index,
the imagery tile otherwise. -/
def tileAt (e : Entry) (maskIdx : Int) (x y : Nat) (p : Int) : TileRef :=
  if p ≠ maskIdx then ⟨e.lvl, false, x, y, p⟩ else ⟨e.lvl, true, x, y, 0⟩

/-- The `y`/`x`/`p` loop nest of Go `(*cog).tiles` for one interleaving
group `l1`: rows, then columns, then the group's planes. -/
def groupTiles (e : Entry) (l1 : List Int) : List TileRef :=
  (List.range (nTilesY e.ifd)).flatMap fun y =>
    (List.range (nTilesX e.ifd)).flatMap fun x =>
      l1.map fun p => tileAt e (entryMaskIdx e) x y p

/-- The tiles of one entry in emission order, the body of the goroutine in
Go `(*cog).tiles`: plane groups (`l1`) outermost, then rows, then columns,
then the planes of the group, with the mask tile substituted whenever the
group reaches the mask index. -/
def entryTiles (e : Entry) : List TileRef :=
  e.ifd.planarInterleaving.flatMap fun l1 => groupTiles e l1

/-- Go `(*cog).tiles` flattened to a list: the full interleave sequence
consumed by both the offset computer and the writer. -/
def tiles (t : IFDTree) : List TileRef :=
  (ifdInterlacing t).flatMap entryTiles

/-- Identity of a tile-offset slot: level, mask flag and linear tile
index (the triple addressed by `tile.ifd.newTileOffsets[tileidx]`). -/
abbrev OffKey := Nat × Bool × Int

/-- The (imagery, mask) pair stored at tree level `lvl`. -/
def ifdPairAt (t : IFDTree) (lvl : Nat) : IFDData × Option IFDData :=
  if lvl = 0 then (t.main, t.mainMask) else t.overviews.getD (lvl - 1) default

/-- The IFD a tile reference addresses (`tile.ifd` in Go): the level's
mask when `isMask`, its imagery IFD otherwise. -/
def refIFD (t : IFDTree) (r : TileRef) : IFDData :=
  if r.isMask then ((ifdPairAt t r.lvl).2).getD default else (ifdPairAt t r.lvl).1

/-- The offset-slot key of a tile reference. -/
def refKey (t : IFDTree) (r : TileRef) : OffKey :=
  (r.lvl, r.isMask, tileIdx (refIFD t r) r.x r.y r.plane)

/-- The byte count of the tile a reference addresses. -/
def refLen (t : IFDTree) (r : TileRef) : Nat :=
  tileLen (refIFD t r) (tileIdx (refIFD t r) r.x r.y r.plane)

/-- The directories of the tree in the order they are written to the
file (spec §4.5): main, main's mask, then each overview followed by its
mask. -/
def dirSeq (t : IFDTree) : List IFDData :=
  t.main :: (t.mainMask.toList ++ t.overviews.flatMap fun (o, om) => o :: om.toList)

/-- The initial `dataOffset` of Go `(*cog).computeImageryOffsets`: the
header size, plus (in ghost mode) the ghost block and 4 more bytes — the
first tile's leader — plus every directory's `tagSize` and `strileSize`
in tree order. -/
def initialDataOffset (big g : Bool) (t : IFDTree) : Nat :=
  let d0 : Nat := if big then 16 else 8
  let d1 : Nat := if g then
      (if t.mainMask.isSome then d0 + ghostmask.length + 4 else d0 + ghost.length + 4)
    else d0
  d1 + ((dirSeq t).map fun d => (computeStructure big d).strileSize + (computeStructure big d).tagSize).sum

/-- The band/mask consistency checks at the top of
`computeImageryOffsets`: every overview must have the main IFD's plane
count, and must have a mask exactly when the main IFD does. -/
def bandMaskCheck (t : IFDTree) : Option String :=
  let np := nPlanes t.main
  let hm := t.mainMask.isSome
  t.overviews.findSome? fun (o, om) =>
    if nPlanes o ≠ np then some "inconsistent band count"
    else if om.isSome ≠ hm then some "inconsistent mask count"
    else none

/-- One write performed by the offset loop: the slot key, the tile's byte
count, and the offset value stored into `newTileOffsets`. -/
structure TraceEntry where
  key : OffKey
  bc : Nat
  off : Nat
  deriving Repr, DecidableEq

/-- The offset-assignment loop of `computeImageryOffsets` as a trace of
array writes.  A non-sparse tile is assigned the running `dataOffset`,
which then advances by the byte count plus 8 leader/trailer bytes in
ghost mode; a sparse tile is assigned 0.  In classic mode a running
offset beyond `2^32 - 1` aborts the loop (`none`), which Go answers by
restarting in BigTIFF mode. -/
def assignTrace (g big : Bool) (t : IFDTree) :
    List TileRef → Nat → Option (List TraceEntry × Nat)
  | [], off => some ([], off)
  | r :: rest, off =>
    let bc := refLen t r
    if 0 < bc then
      if big then
        match assignTrace g big t rest (off + bc + if g then 8 else 0) with
        | some (tr, fin) => some (⟨refKey t r, bc, off⟩ :: tr, fin)
        | none => none
      else if 4294967295 < off then none
      else
        match assignTrace g big t rest (off + bc + if g then 8 else 0) with
        | some (tr, fin) => some (⟨refKey t r, bc, off⟩ :: tr, fin)
        | none => none
    else
      match assignTrace g big t rest off with
      | some (tr, fin) => some (⟨refKey t r, bc, 0⟩ :: tr, fin)
      | none => none

/-- In BigTIFF mode the assignment loop never aborts: the overflow check
is only reachable when `big` is false. -/
theorem assignTrace_big_ne_none (g : Bool) (t : IFDTree) :
    ∀ (refs : List TileRef) (off : Nat), assignTrace g true t refs off ≠ none := by
  intro refs
  induction refs with
  | nil => intro off h; simp [assignTrace] at h
  | cons r rest ih =>
    intro off h
    rw [assignTrace] at h
    by_cases hbc : 0 < refLen t r
    · simp only [hbc, if_true, if_pos rfl] at h
      rcases h2 : assignTrace g true t rest (off + refLen t r + if g then 8 else 0) with _ | ⟨tr, fin⟩
      · exact ih _ h2
      · rw [h2] at h; simp at h
    · simp only [hbc, if_false] at h
      rcases h2 : assignTrace g true t rest off with _ | ⟨tr, fin⟩
      · exact ih _ h2
      · rw [h2] at h; simp at h

/-- Go `(*cog).computeImageryOffsets`: run the band/mask checks, then the
assignment loop from the computed initial offset; on 32-bit overflow set
`bigtiff` and rerun the whole computation once.  The result carries the
final addressing mode, the write trace and the final running offset. -/
def computeImageryOffsets (g : Bool) (t : IFDTree) (big : Bool) :
    Except String (Bool × List TraceEntry × Nat) :=
  match bandMaskCheck t with
  | some e => .error e
  | none =>
    match h : assignTrace g big t (tiles t) (initialDataOffset big g t) with
    | some (tr, fin) => .ok (big, tr, fin)
    | none =>
      computeImageryOffsets g t true
termination_by (if big then 0 else 1)
decreasing_by
  cases big
  · simp
  · exact absurd h (assignTrace_big_ne_none g t (tiles t) (initialDataOffset true g t))

/-- The final content of the `newTileOffsets` arrays after the trace's
writes, starting from the freshly allocated all-zero arrays. -/
def finalOffsets (tr : List TraceEntry) : OffKey → Nat :=
  tr.foldl (fun f e => Function.update f e.key e.off) (fun _ => 0)

/-- Go `Config`: the byte order is reduced to its endianness
(`Encoding = true` for the little-endian default). -/
structure Config where
  Encoding : Bool := true
  BigTIFF : Bool := false
  PlanarInterleaving : List (List Int) := []
  WithGDALGhostArea : Bool := false
  deriving Repr, DecidableEq

/-- Go `DefaultConfig`. -/
def DefaultConfig : Config :=
  { Encoding := true, BigTIFF := false, WithGDALGhostArea := true }

/-- The ghost flag actually used by `RewriteIFDTree`: the configured
`WithGDALGhostArea`, forced off when the main IFD or any overview has
more than one plane (`havePlanar` in the source). -/
def effectiveGhost (cfg : Config) (t : IFDTree) : Bool :=
  let havePlanar := 1 < nPlanes t.main ∨ ∃ p ∈ t.overviews, 1 < nPlanes p.1
  if havePlanar then false else cfg.WithGDALGhostArea

instance (cfg : Config) (t : IFDTree) :
    Decidable (1 < nPlanes t.main ∨ ∃ p ∈ t.overviews, 1 < nPlanes p.1) := by
  unfold nPlanes; infer_instance

/-- The bytes of the ghost block that `writeHeader` emits (ASCII code
points of `ghost` or `ghostmask`). -/
def ghostBytes (maskPresent : Bool) : List Nat :=
  ((if maskPresent then ghostmask else ghost).toList).map Char.toNat

/-- Go `(*cog).writeHeader` as a byte list: the byte-order mark, the
magic (42 classic / 43 BigTIFF with its offset-size and reserved words),
the first-IFD offset `8 + glen` (classic) or `16 + glen` (BigTIFF), then
the ghost block when enabled. -/
def writeHeaderBytes (le big g maskPresent : Bool) : List Nat :=
  let glen : Nat := if g then (if maskPresent then ghostmask.length else ghost.length) else 0
  let bom : List Nat := if le then [73, 73] else [77, 77]
  if big then
    bom ++ put16 le 43 ++ put16 le 8 ++ put16 le 0 ++ put64 le (16 + glen) ++
      (if g then ghostBytes maskPresent else [])
  else
    bom ++ put16 le 42 ++ put32 le (8 + glen) ++
      (if g then ghostBytes maskPresent else [])

/-- The bytes the tile-copy loop of `RewriteIFDTree` emits for one tile:
nothing for a sparse tile; otherwise the body, framed in ghost mode by a
little-endian u32 leader holding the byte count and a 4-byte trailer
copied from buffer positions `bc .. bc+3` — the last four bytes of
leader-plus-body. -/
def emitTileBytes (g : Bool) (bc : Nat) (body : List Nat) : List Nat :=
  if 0 < bc then
    let framed := le32 bc ++ body
    if g then framed ++ (framed.drop bc).take 4 else body
  else []

/-- The concatenated tile-body section of the output: the interleave
sequence again, emitting each tile's bytes via `emitTileBytes`.  `bodies`
stands for the `LoadTile` callbacks (the compressed tile contents of the
inputs). -/
def tileStream (g : Bool) (t : IFDTree) (bodies : OffKey → List Nat) : List Nat :=
  (tiles t).flatMap fun r => emitTileBytes g (refLen t r) (bodies (refKey t r))

/-- The number of directory entries Go `(*cog).writeIFD` emits: one per
condition in the writer's source order (PhotometricInterpretation is
unconditional; tag 324 is guarded by `newTileOffsets`, allocated with
`TileByteCounts`'s length). -/
def writeIFDEntryCount (d : IFDData) : Nat :=
  (if 0 < d.SubfileType then 1 else 0) + (if 0 < d.ImageWidth then 1 else 0) +
  (if 0 < d.ImageHeight then 1 else 0) + (if d.BitsPerSample ≠ [] then 1 else 0) +
  (if 0 < d.Compression then 1 else 0) + 1 +
  (if d.DocumentName ≠ "" then 1 else 0) + (if 0 < d.SamplesPerPixel then 1 else 0) +
  (if 0 < d.PlanarConfiguration then 1 else 0) + (if d.DateTime ≠ "" then 1 else 0) +
  (if 0 < d.Predictor then 1 else 0) + (if d.Colormap ≠ [] then 1 else 0) +
  (if 0 < d.TileWidth then 1 else 0) + (if 0 < d.TileHeight then 1 else 0) +
  (if d.TileByteCounts ≠ [] then 1 else 0) + (if d.TileByteCounts ≠ [] then 1 else 0) +
  (if d.ExtraSamples ≠ [] then 1 else 0) + (if d.SampleFormat ≠ [] then 1 else 0) +
  (if d.JPEGTables ≠ [] then 1 else 0) + (if d.ModelPixelScaleTag ≠ [] then 1 else 0) +
  (if d.ModelTiePointTag ≠ [] then 1 else 0) + (if d.ModelTransformationTag ≠ [] then 1 else 0) +
  (if d.GeoKeyDirectoryTag ≠ [] then 1 else 0) + (if d.GeoDoubleParamsTag ≠ [] then 1 else 0) +
  (if d.GeoAsciiParamsTag ≠ "" then 1 else 0) + (if d.GDALMetaData ≠ "" then 1 else 0) +
  (if d.NoData ≠ "" then 1 else 0) + (if d.LERCParams ≠ [] then 1 else 0) +
  (if d.RPCs ≠ [] then 1 else 0)

/-- Overflow payload a SHORT[] value appends to the per-directory
overflow buffer in `writeArray` (0 when it fits inline). -/
def ovfShort (big : Bool) (l : List Nat) : Nat :=
  if l.length ≤ (if big then 4 else 2) then 0 else 2 * l.length

/-- Overflow payload of a BYTE[] value in `writeArray`. -/
def ovfByte (big : Bool) (l : List Nat) : Nat :=
  if l.length ≤ (if big then 8 else 4) then 0 else l.length

/-- Overflow payload of a LONG[] (u32) value in `writeArray`. -/
def ovfLong (big : Bool) (l : List Nat) : Nat :=
  if l.length ≤ (if big then 2 else 1) then 0 else 4 * l.length

/-- Overflow payload of a DOUBLE[] value in `writeArray`: a classic-TIFF
double array always overflows. -/
def ovfDouble (big : Bool) (l : List Nat) : Nat :=
  if big then (if l.length ≤ 1 then 0 else 8 * l.length) else 8 * l.length

/-- Overflow payload of an ASCII value in `writeArray` (NUL included). -/
def ovfAscii (big : Bool) (s : String) : Nat :=
  if s.length + 1 ≤ (if big then 8 else 4) then 0 else s.length + 1

/-- The total overflow-buffer payload of one directory: the overflowing
values among the tags `writeIFD` routes to the per-directory `overflow`
buffer (the strile arrays 324/325 go to the global strile buffer
instead and do not appear here). -/
def writeIFDOverflowLen (big : Bool) (d : IFDData) : Nat :=
  ovfShort big d.BitsPerSample + ovfAscii big d.DocumentName +
  ovfAscii big d.DateTime + ovfShort big d.Colormap +
  ovfShort big d.ExtraSamples + ovfShort big d.SampleFormat +
  ovfByte big d.JPEGTables + ovfDouble big d.ModelPixelScaleTag +
  ovfDouble big d.ModelTiePointTag + ovfDouble big d.ModelTransformationTag +
  ovfShort big d.GeoKeyDirectoryTag + ovfDouble big d.GeoDoubleParamsTag +
  ovfAscii big d.GeoAsciiParamsTag + ovfAscii big d.GDALMetaData +
  ovfAscii big d.NoData + ovfLong big d.LERCParams + ovfDouble big d.RPCs

/-- Total bytes Go `(*cog).writeIFD` writes to the output for one
directory: the entry-count word, the fixed entries, the next-IFD
pointer, and the flushed overflow buffer. -/
def writeIFDEmitLen (big : Bool) (d : IFDData) : Nat :=
  (if big then 8 else 2) + (if big then 20 else 12) * writeIFDEntryCount d +
    (if big then 8 else 4) + writeIFDOverflowLen big d

/-- One directory write as performed by `RewriteIFDTree`: which IFD, the
`offset` argument the caller passed to `writeIFD`, and the next-IFD
pointer `writeIFD` derives from it (`offset + ifd.tagSize` when a next
directory follows, else 0). -/
structure DirRec where
  lvl : Nat
  isMask : Bool
  dir : IFDData
  offArg : Nat
  nextPtr : Nat
  deriving Repr, DecidableEq

/-- The next-IFD pointer computed inside `writeIFD`. -/
def writeIFDNext (big : Bool) (d : IFDData) (offset : Nat) (next : Bool) : Nat :=
  if next then offset + (computeStructure big d).tagSize else 0

/-- The directory-writing sequence of `RewriteIFDTree` with the `off`
bookkeeping of the source: after the main IFD and its mask, the overview
loop advances `off` by `ifd.tagSize` — the MAIN IFD's directory size —
after each overview (`off += ifd.tagSize` where `ifd` is the outer
function argument), and by the overview mask's own `tagSize` after each
mask. -/
def writerDirRecs (big g : Bool) (t : IFDTree) : List DirRec :=
  let base : Nat := (if big then 16 else 8) +
    (if g then (if t.mainMask.isSome then ghostmask.length else ghost.length) else 0)
  let n := t.overviews.length
  let mainNext := t.mainMask.isSome ∨ t.overviews ≠ []
  let rec0 : DirRec := ⟨0, false, t.main, base, writeIFDNext big t.main base mainNext⟩
  let off1 := base + (computeStructure big t.main).tagSize
  let (maskRecs, off2) : List DirRec × Nat :=
    match t.mainMask with
    | some m => ([⟨0, true, m, off1, writeIFDNext big m off1 (t.overviews ≠ [])⟩],
        off1 + (computeStructure big m).tagSize)
    | none => ([], off1)
  let step : (List DirRec × Nat) → Nat × (IFDData × Option IFDData) → List DirRec × Nat :=
    fun (acc, off) (i, (o, om)) =>
      let r1 : DirRec := ⟨i + 1, false, o, off,
        writeIFDNext big o off (om.isSome ∨ i ≠ n - 1)⟩
      let off3 := off + (computeStructure big t.main).tagSize
      match om with
      | some m =>
        (acc ++ [r1, ⟨i + 1, true, m, off3, writeIFDNext big m off3 (i ≠ n - 1)⟩],
          off3 + (computeStructure big m).tagSize)
      | none => (acc ++ [r1], off3)
  (t.overviews.enum.foldl step (rec0 :: maskRecs, off2)).1

/-- The true file offset at which each directory of the §4.5 sequence
begins: the header-plus-ghost size plus the cumulative emitted lengths of
the previous directories. -/
def actualDirStarts (big g : Bool) (t : IFDTree) : List Nat :=
  let base : Nat := (if big then 16 else 8) +
    (if g then (if t.mainMask.isSome then ghostmask.length else ghost.length) else 0)
  ((dirSeq t).foldl (fun (acc, off) d => (acc ++ [off], off + writeIFDEmitLen big d))
    (([] : List Nat), base)).1

/-- Where the offset computer and the strile-offset accounting of
`RewriteIFDTree` place each directory: the same cumulative sums taken
over `tagSize` (each directory's own planned size). -/
def plannedDirStarts (big g : Bool) (t : IFDTree) : List Nat :=
  let base : Nat := (if big then 16 else 8) +
    (if g then (if t.mainMask.isSome then ghostmask.length else ghost.length) else 0)
  ((dirSeq t).foldl (fun (acc, off) d => (acc ++ [off], off + (computeStructure big d).tagSize))
    (([] : List Nat), base)).1

/-- The configured-interleaving step of `RewriteIFDTree` for the main
IFD: apply `cfg.PlanarInterleaving` when none is stored yet, wrapping a
validation failure as "invalid planar interleaving". -/
def setPIMain (cfg : Config) (t : IFDTree) : Except String IFDData :=
  if t.main.planarInterleaving = [] then
    match SetPlanarInterleaving t.main t.mainMask.isSome cfg.PlanarInterleaving with
    | .ok d => .ok d
    | .error e => .error ("invalid planar interleaving: " ++ e)
  else .ok t.main

/-- The configured-interleaving step for one overview (paired with its
index, for the error message). -/
def setPIOvr (cfg : Config) (x : Nat × (IFDData × Option IFDData)) :
    Except String (IFDData × Option IFDData) :=
  if x.2.1.planarInterleaving = [] then
    match SetPlanarInterleaving x.2.1 x.2.2.isSome cfg.PlanarInterleaving with
    | .ok d => .ok (d, x.2.2)
    | .error e =>
      .error ("invalid planar interleaving for overview " ++ toString x.1 ++ ": " ++ e)
  else .ok x.2

/-- The planar-interleaving configuration step of `RewriteIFDTree`: with
no configured interleaving every IFD gets its default; otherwise every
IFD whose interleaving is still unset gets the configured one, and a
validation failure aborts the rewrite with an "invalid planar
interleaving" error (suffixed with the overview index for overviews). -/
def setPIs (cfg : Config) (t : IFDTree) : Except String IFDTree :=
  if cfg.PlanarInterleaving = [] then
    .ok { t with
          main := setDefaultPlanarInterleaving t.main t.mainMask.isSome,
          overviews := t.overviews.map (fun (o, om) =>
            (setDefaultPlanarInterleaving o om.isSome, om)) }
  else do
    let main2 ← setPIMain cfg t
    let ovrs2 ← t.overviews.enum.mapM (setPIOvr cfg)
    .ok { t with
          main := main2,
          overviews := ovrs2 }

/-- Everything `RewriteIFDTree` sends to the output writer, in file
order: the header (with ghost block), the directory writes, the chosen
addressing mode, the offset-assignment trace backing the tag-324 arrays,
and the concatenated tile bodies. -/
structure WriterOutput where
  header : List Nat
  dirs : List DirRec
  bigtiff : Bool
  trace : List TraceEntry
  tileBytes : List Nat

/-- Go `Config.RewriteIFDTree`: compute the effective ghost flag, set the
planar interleavings (possibly failing), run the offset computer
(possibly promoting to BigTIFF), then emit header, directories, striles
and tile bodies.  `bodies` stands for the per-IFD `LoadTile` callbacks.
Both the offset computer and the tile-copy loop below consume the same
`tiles` sequence, as in the source where both call `cog.ifdInterlacing`
then `cog.tiles`. -/
def rewriteIFDTree (cfg : Config) (t : IFDTree) (bodies : OffKey → List Nat) :
    Except String WriterOutput := do
  let g := effectiveGhost cfg t
  let t2 ← setPIs cfg t
  let (big, tr, _fin) ← computeImageryOffsets g t2 cfg.BigTIFF
  .ok { header := writeHeaderBytes cfg.Encoding big g t2.mainMask.isSome,
        dirs := writerDirRecs big g t2,
        bigtiff := big,
        trace := tr,
        tileBytes := tileStream g t2 bodies }

/-- The fields of the legacy `ifd` struct that the multi-file loader
(`loadMultipleTIFFs` in loader.go) reads and writes. -/
structure LoaderIFD where
  SubfileType : Nat := 0
  ImageWidth : Nat := 0
  ImageLength : Nat := 0
  deriving Repr, DecidableEq

instance : Inhabited LoaderIFD := ⟨{}⟩

/-- The loader's `ifd.SubfileType |= subfileTypeReducedImage`. -/
def tagReduced (i : LoaderIFD) : LoaderIFD :=
  { i with SubfileType := i.SubfileType ||| 1 }

/-- The inner loop of Go `loadMultipleTIFFs` for the IFDs of file number
`it`: every IFD of a file other than the first must be strictly smaller,
in both dimensions, than the FIRST ACCUMULATED IFD (`ifds[0]`, i.e. the
first IFD of the first file), and is tagged `reduced_image`; otherwise
the load fails.  The Go code indexes `ifds[0]` unconditionally, which
panics when the first file had no IFDs; that read is modelled by the
default value. -/
def loadFileIFDs (it : Nat) : List LoaderIFD → List LoaderIFD → Except String (List LoaderIFD)
  | [], acc => .ok acc
  | i :: rest, acc =>
    if it ≠ 0 then
      let first := acc.getD 0 default
      if first.ImageLength ≤ i.ImageLength ∨ first.ImageWidth ≤ i.ImageWidth then
        .error "provided tiff is larger than first tiff. when using multiple files, the subsequent ones must be overviews of the first one"
      else loadFileIFDs it rest (acc ++ [tagReduced i])
    else loadFileIFDs it rest (acc ++ [i])

/-- The outer loop of Go `loadMultipleTIFFs` over the input files. -/
def loadFilesFrom : Nat → List (List LoaderIFD) → List LoaderIFD → Except String (List LoaderIFD)
  | _, [], acc => .ok acc
  | it, f :: rest, acc =>
    match loadFileIFDs it f acc with
    | .ok acc2 => loadFilesFrom (it + 1) rest acc2
    | .error e => .error e

/-- Go `loadMultipleTIFFs` (loader.go): flatten the input files' IFDs,
enforcing the additional-file size policy and the `reduced_image`
tagging. -/
def loadMultipleTIFFs (tifs : List (List LoaderIFD)) : Except String (List LoaderIFD) :=
  loadFilesFrom 0 tifs []

/-- Spec-side notion used by claim C9: the MAIN IMAGE of the inputs, the
IFD of largest pixel area (the root the merge step selects by sorting on
descending area). -/
def mainImageOf (tifs : List (List LoaderIFD)) : LoaderIFD :=
  tifs.flatten.foldl
    (fun m i => if m.ImageWidth * m.ImageLength < i.ImageWidth * i.ImageLength then i else m)
    default

/-- Spec-side: `a` is strictly smaller than `b` in both dimensions. -/
def strictlySmaller (a b : LoaderIFD) : Prop :=
  a.ImageWidth < b.ImageWidth ∧ a.ImageLength < b.ImageLength

instance (a b : LoaderIFD) : Decidable (strictlySmaller a b) := by
  unfold strictlySmaller; infer_instance

/-- Claim C9 as stated: if every IFD of every file other than the first
is strictly smaller than the main image, the loader accepts the input. -/
def claimC9Prop (tifs : List (List LoaderIFD)) : Prop :=
  (∀ p ∈ tifs.enum, p.1 ≠ 0 → ∀ i ∈ p.2, strictlySmaller i (mainImageOf tifs)) →
    ∃ l, loadMultipleTIFFs tifs = .ok l

/-- Position of a level in the emission order (0 = emitted first): the
smallest overview comes first and the main image (level 0) last. -/
def levelRank (t : IFDTree) (lvl : Nat) : Nat :=
  t.overviews.length - lvl

/-- The planar interleaving of a level's imagery IFD. -/
def piAt (t : IFDTree) (lvl : Nat) : List (List Int) :=
  (ifdPairAt t lvl).1.planarInterleaving

/-- The mask index the interleaver uses at a level: `SamplesPerPixel`
for separate-plane imagery, 1 otherwise, and -1 when no mask is
interleaved (either the level or the main IFD has none). -/
def maskIdxAt (t : IFDTree) (lvl : Nat) : Int :=
  match (if t.mainMask.isSome then (ifdPairAt t lvl).2 else none) with
  | some _ => if (ifdPairAt t lvl).1.PlanarConfiguration = 2
      then ((ifdPairAt t lvl).1.SamplesPerPixel : Int) else 1
  | none => -1

/-- The interleaving index a tile reference was emitted under: the mask
index for mask tiles, the plane for imagery tiles. -/
def planeKey (t : IFDTree) (r : TileRef) : Int :=
  if r.isMask then maskIdxAt t r.lvl else r.plane

/-- Position of a reference's interleaving index in the level's
flattened `PlanarInterleaving`. -/
def flatRank (t : IFDTree) (r : TileRef) : Nat :=
  ((piAt t r.lvl).flatten).indexOf (planeKey t r)

/-- Index of the interleaving group a reference's index belongs to. -/
def groupRank (t : IFDTree) (r : TileRef) : Nat :=
  (piAt t r.lvl).findIdx fun l1 => l1.contains (planeKey t r)

/-- Position of a reference's interleaving index inside its group. -/
def inGroupRank (t : IFDTree) (r : TileRef) : Nat :=
  ((piAt t r.lvl).getD (groupRank t r) []).indexOf (planeKey t r)

/-- The emission order claim C1 asserts: levels lowest to highest, then
row-major `(y, x)`, then the position in the (flattened) planar
interleaving. -/
def claimLt (t : IFDTree) (a b : TileRef) : Prop :=
  levelRank t a.lvl < levelRank t b.lvl ∨ (a.lvl = b.lvl ∧
    (a.y < b.y ∨ (a.y = b.y ∧ (a.x < b.x ∨ (a.x = b.x ∧ flatRank t a < flatRank t b)))))

/-- The emission order the code implements: levels lowest to highest,
then the interleaving GROUP, then row-major `(y, x)` within the group,
then the position inside the group. -/
def amendLt (t : IFDTree) (a b : TileRef) : Prop :=
  levelRank t a.lvl < levelRank t b.lvl ∨ (a.lvl = b.lvl ∧
    (groupRank t a < groupRank t b ∨ (groupRank t a = groupRank t b ∧
      (a.y < b.y ∨ (a.y = b.y ∧ (a.x < b.x ∨ (a.x = b.x ∧ inGroupRank t a < inGroupRank t b)))))))

instance (t : IFDTree) (a b : TileRef) : Decidable (claimLt t a b) := by
  unfold claimLt; infer_instance

instance (t : IFDTree) (a b : TileRef) : Decidable (amendLt t a b) := by
  unfold amendLt; infer_instance

/-- The spec's §4.4 step-3 formula for the initial data offset:
`header_size + ghost_size + Σ dir_bytes + Σ strile_bytes` over the tree
in writing order, with no other term. -/
def specInitialDataOffset (big g : Bool) (t : IFDTree) : Nat :=
  (if big then 16 else 8) +
  (if g then (if t.mainMask.isSome then ghostmask.length else ghost.length) else 0) +
  ((dirSeq t).map fun d => (computeStructure big d).tagSize).sum +
  ((dirSeq t).map fun d => (computeStructure big d).strileSize).sum

/-- The last four elements of a byte list. -/
def lastFour (l : List Nat) : List Nat :=
  l.drop (l.length - 4)

section Examples

/-- A minimal single-tile contiguous main IFD used by concrete
witnesses: 2 x 1 tiles of 1 x 1 pixels, byte counts 5 and 7. -/
def exMainA : IFDData :=
  { ImageWidth := 2, ImageHeight := 1, TileWidth := 1, TileHeight := 1,
    SamplesPerPixel := 1, PhotometricInterpretation := 1,
    TileByteCounts := [5, 7], planarInterleaving := [[0]] }

/-- Tree with `exMainA` as its only IFD. -/
def exTreeA : IFDTree := { main := exMainA }

/-- Separate-plane two-sample main IFD with the custom interleaving
`[[0], [1]]` (all of plane 0 first, then all of plane 1). -/
def exMainB : IFDData :=
  { ImageWidth := 2, ImageHeight := 1, TileWidth := 1, TileHeight := 1,
    SamplesPerPixel := 2, PlanarConfiguration := 2,
    TileByteCounts := [3, 4, 6, 9], planarInterleaving := [[0], [1]] }

/-- Tree with `exMainB` as its only IFD. -/
def exTreeB : IFDTree := { main := exMainB }

/-- Separate-plane single-sample IFD: `nPlanes` is 1, so the ghost area
is NOT forced off although `PlanarConfiguration = 2`. -/
def exMainC : IFDData :=
  { PlanarConfiguration := 2, SamplesPerPixel := 1 }

/-- Tree with `exMainC` as its only IFD. -/
def exTreeC : IFDTree := { main := exMainC }

/-- Single-tile main image for the directory-offset exhibit. -/
def exMainD : IFDData :=
  { ImageWidth := 8, ImageHeight := 8, TileWidth := 8, TileHeight := 8,
    TileByteCounts := [10] }

/-- Single-tile overview of side `w` for the directory-offset exhibit;
its `SubfileType` of 1 gives it one directory entry more than
`exMainD`. -/
def exOvrD (w : Nat) : IFDData :=
  { SubfileType := 1, ImageWidth := w, ImageHeight := w, TileWidth := w, TileHeight := w,
    TileByteCounts := [5] }

/-- Main image with three overviews: the smallest tree on which the
writer's directory positions drift from the planned ones. -/
def exTreeD : IFDTree :=
  { main := exMainD, overviews := [(exOvrD 4, none), (exOvrD 2, none), (exOvrD 1, none)] }

end Examples

/-- Claim C2 as stated: the writer's directory positions and next-IFD
pointers agree with the true (and planned) directory starts — every
next-IFD pointer equals the next directory's actual position, the last
being zero. -/
def claimC2Prop (big g : Bool) (t : IFDTree) : Prop :=
  (writerDirRecs big g t).map DirRec.offArg = actualDirStarts big g t ∧
  (writerDirRecs big g t).map DirRec.nextPtr = (actualDirStarts big g t).drop 1 ++ [0]

/-- `Except` result with an `ok` payload, as a Boolean. -/
def isOkE {ε α : Type} : Except ε α → Bool
  | .ok _ => true
  | .error _ => false

/-- Claim C9: on an input whose additional-file IFD (50 x 50) IS
strictly smaller than the main image (the 100 x 100 second IFD of the
first file), the loader nevertheless rejects, because it compares
against the FIRST IFD of the first file (10 x 10). -/
def exTifs9 : List (List LoaderIFD) :=
  [[⟨0, 10, 10⟩, ⟨0, 100, 100⟩], [⟨0, 50, 50⟩]]

/-- Claim C4 as stated: along the interleave sequence each non-sparse
tile's offset plus byte count (plus ghost bytes) is STRICTLY below every
later non-sparse tile's offset. -/
def claimC4Prop (g big : Bool) (t : IFDTree) : Prop :=
  ∀ (tr : List TraceEntry) (fin : Nat),
    assignTrace g big t (tiles t) (initialDataOffset big g t) = some (tr, fin) →
    ∀ (i j : Fin tr.length), (i : Nat) < (j : Nat) →
      0 < (tr.get i).bc → 0 < (tr.get j).bc →
      (tr.get i).off + (tr.get i).bc + (if g then 8 else 0) < (tr.get j).off

/-- A contiguous (non-planar) main IFD with no stored interleaving,
for claim C10's witness. -/
def exMainE : IFDData :=
  { ImageWidth := 2, ImageHeight := 1, TileWidth := 1, TileHeight := 1,
    SamplesPerPixel := 1, PhotometricInterpretation := 1,
    TileByteCounts := [5, 7] }

/-- Tree with `exMainE` as its only IFD. -/
def exTreeE : IFDTree := { main := exMainE }

/-- The per-IFD data-model invariants (spec §3) that claim C7 needs: the
tile count matches the derived geometry and the stored interleaving
covers every plane index (plus the mask index when a mask is attached,
`maskBit`). -/
def WFifd (d : IFDData) (maskBit : Bool) : Prop :=
  d.TileByteCounts.length = nPlanes d * (nTilesX d * nTilesY d) ∧
  (∀ k < nPlanes d + (if maskBit then 1 else 0), (k : Int) ∈ d.planarInterleaving.flatten)

/-- The mask-structure invariants: same tiling as the parent and one
tile slot per spatial position. -/
def WFmask (d m : IFDData) : Prop :=
  nTilesX m = nTilesX d ∧ nTilesY m = nTilesY d ∧
  m.TileByteCounts.length = nTilesX d * nTilesY d

/-- Mask well-formedness lifted to an optional mask (vacuous when
absent). -/
def WFmaskOpt (d : IFDData) : Option IFDData → Prop
  | some m => WFmask d m
  | none => True

/-- The tree invariants claim C7 needs: main and overviews well-formed,
masks structurally consistent, and masks present on overviews exactly
when the main IFD has one. -/
def WF (t : IFDTree) : Prop :=
  WFifd t.main t.mainMask.isSome ∧ WFmaskOpt t.main t.mainMask ∧
  ∀ p ∈ t.overviews, WFifd p.1 t.mainMask.isSome ∧ p.2.isSome = t.mainMask.isSome ∧
    WFmaskOpt p.1 p.2

instance (d : IFDData) (b : Bool) : Decidable (WFifd d b) := by
  unfold WFifd; infer_instance

instance (d : IFDData) (o : Option IFDData) : Decidable (WFmaskOpt d o) := by
  cases o <;> unfold WFmaskOpt WFmask <;> infer_instance

instance (t : IFDTree) : Decidable (WF t) := by
  unfold WF; infer_instance

/-- The completed offset run of `exTreeA` in classic non-ghost mode,
evaluated for the C7 witness. -/
def exRun7 : List TraceEntry × Nat :=
  (assignTrace false false exTreeA (tiles exTreeA)
    (initialDataOffset false false exTreeA)).getD ([], 0)

/-- Sum of a pointwise sum of two maps splits into two sums. -/
theorem sum_map_add {α : Type} (l : List α) (f g : α → Nat) :
    (l.map fun x => f x + g x).sum = (l.map f).sum + (l.map g).sum := by
  induction l with
  | nil => rfl
  | cons a l ih => simp [ih]; omega

/-- Inversion principle for one step of the assignment loop. -/
theorem assignTrace_cons_some (g big : Bool) (t : IFDTree) (r : TileRef) (rest : List TileRef)
    (off : Nat) (tr : List TraceEntry) (fin : Nat) :
    assignTrace g big t (r :: rest) off = some (tr, fin) ↔
      ((0 < refLen t r ∧ (big = true ∨ off ≤ 4294967295) ∧
        ∃ tr2, assignTrace g big t rest (off + refLen t r + if g then 8 else 0) = some (tr2, fin) ∧
          tr = ⟨refKey t r, refLen t r, off⟩ :: tr2) ∨
       (refLen t r = 0 ∧
        ∃ tr2, assignTrace g big t rest off = some (tr2, fin) ∧
          tr = ⟨refKey t r, refLen t r, 0⟩ :: tr2)) := by
  rw [assignTrace]
  by_cases hbc : 0 < refLen t r
  · cases big
    · by_cases hov : 4294967295 < off
      · rcases h2 : assignTrace g false t rest (off + refLen t r + if g then 8 else 0) with _ | ⟨tr2, fin2⟩ <;>
          simp only [if_pos hbc, Bool.false_eq_true, if_false, if_pos hov] <;>
          constructor <;> intro h
        · exact absurd h (by simp)
        · rcases h with ⟨_, hb, _⟩ | ⟨h0, _⟩
          · rcases hb with hb | hb
            · exact absurd hb (by simp)
            · omega
          · omega
        · exact absurd h (by simp)
        · rcases h with ⟨_, hb, _⟩ | ⟨h0, _⟩
          · rcases hb with hb | hb
            · exact absurd hb (by simp)
            · omega
          · omega
      · rcases h2 : assignTrace g false t rest (off + refLen t r + if g then 8 else 0) with _ | ⟨tr2, fin2⟩ <;>
          simp only [if_pos hbc, Bool.false_eq_true, if_false, if_neg hov] <;>
          constructor <;> intro h
        · exact absurd h (by simp)
        · rcases h with ⟨_, _, tr3, h3, _⟩ | ⟨h0, _⟩
          · exact absurd h3 (by simp)
          · omega
        · simp only [Option.some.injEq, Prod.mk.injEq] at h
          exact Or.inl ⟨hbc, Or.inr (by omega), tr2, by rw [h.2], by rw [← h.1]⟩
        · rcases h with ⟨_, _, tr3, h3, htr⟩ | ⟨h0, _⟩
          · simp only [Option.some.injEq, Prod.mk.injEq] at h3
            rw [htr, h3.1, h3.2]
          · omega
    · rcases h2 : assignTrace g true t rest (off + refLen t r + if g then 8 else 0) with _ | ⟨tr2, fin2⟩ <;>
        simp only [if_pos hbc, eq_self_iff_true, if_true] <;>
        constructor <;> intro h
      · exact absurd h (by simp)
      · rcases h with ⟨_, _, tr3, h3, _⟩ | ⟨h0, _⟩
        · exact absurd h3 (by simp)
        · omega
      · simp only [Option.some.injEq, Prod.mk.injEq] at h
        exact Or.inl ⟨hbc, Or.inl trivial, tr2, by rw [h.2], by rw [← h.1]⟩
      · rcases h with ⟨_, _, tr3, h3, htr⟩ | ⟨h0, _⟩
        · simp only [Option.some.injEq, Prod.mk.injEq] at h3
          rw [htr, h3.1, h3.2]
        · omega
  · rcases h2 : assignTrace g big t rest off with _ | ⟨tr2, fin2⟩ <;>
      simp only [if_neg hbc] <;>
      constructor <;> intro h
    · exact absurd h (by simp)
    · rcases h with ⟨h0, _⟩ | ⟨_, tr3, h3, _⟩
      · omega
      · exact absurd h3 (by simp)
    · simp only [Option.some.injEq, Prod.mk.injEq] at h
      exact Or.inr ⟨by omega, tr2, by rw [h.2], by rw [← h.1]⟩
    · rcases h with ⟨h0, _⟩ | ⟨_, tr3, h3, htr⟩
      · omega
      · simp only [Option.some.injEq, Prod.mk.injEq] at h3
        rw [htr, h3.1, h3.2]

/-- In a completed run of the assignment loop, the first non-sparse
trace entry is assigned exactly the starting data offset. -/
theorem assignTrace_first_nonsparse (g big : Bool) (t : IFDTree) :
    ∀ (refs : List TileRef) (off : Nat) (tr : List TraceEntry) (fin : Nat),
      assignTrace g big t refs off = some (tr, fin) →
      ∀ e, tr.find? (fun e => decide (0 < e.bc)) = some e → e.off = off := by
  intro refs
  induction refs with
  | nil =>
    intro off tr fin h e he
    simp only [assignTrace, Option.some.injEq, Prod.mk.injEq] at h
    rw [← h.1] at he
    simp [List.find?] at he
  | cons r rest ih =>
    intro off tr fin h e he
    rcases (assignTrace_cons_some g big t r rest off tr fin).mp h with
      ⟨hbc, _, tr2, _, htr⟩ | ⟨hbc, tr2, h2, htr⟩
    · rw [htr, List.find?_cons_of_pos _ (by simpa using hbc)] at he
      cases he; rfl
    · rw [htr, List.find?_cons_of_neg _ (by simp [hbc])] at he
      exact ih off tr2 fin h2 e he

/-- Claim C5: the code's initial data offset carries one term the spec
formula does not: 4 bytes for the first tile's ghost leader.  With the
ghost area enabled they differ (by exactly 4) on `exTreeA`. -/
theorem claim5_counterexample :
    initialDataOffset false true exTreeA ≠ specInitialDataOffset false true exTreeA := by
  decide

/-- Claim C5 (amended): the initial data offset — and with it the offset
assigned to the first non-sparse tile of the interleave sequence —
equals `header_size + ghost_size + Σ dir_bytes + Σ strile_bytes` over
the tree in writing order, PLUS 4 further bytes (the first tile's
leader) when the GDAL ghost area is enabled. -/
theorem claim5_theorem (big g : Bool) (t : IFDTree) :
    initialDataOffset big g t = specInitialDataOffset big g t + (if g then 4 else 0) ∧
    (∀ (tr : List TraceEntry) (fin : Nat),
      assignTrace g big t (tiles t) (initialDataOffset big g t) = some (tr, fin) →
      ∀ e, tr.find? (fun e => decide (0 < e.bc)) = some e →
        e.off = specInitialDataOffset big g t + (if g then 4 else 0)) := by
  have heq : initialDataOffset big g t = specInitialDataOffset big g t + (if g then 4 else 0) := by
    unfold initialDataOffset specInitialDataOffset
    rw [sum_map_add (dirSeq t) (fun d => (computeStructure big d).strileSize)
      (fun d => (computeStructure big d).tagSize)]
    rcases t.mainMask with _ | m <;> cases g <;> cases big <;> simp <;> omega
  refine ⟨heq, ?_⟩
  intro tr fin h e he
  rw [← heq]
  exact assignTrace_first_nonsparse g big t (tiles t) _ tr fin h e he

/-- Witness for `claim5_theorem` at `exTreeA` (ghost mode, classic):
the first non-sparse tile's offset is the spec formula plus 4. -/
theorem claim5_witness :
    ∃ e, (assignTrace true false exTreeA (tiles exTreeA)
        (initialDataOffset false true exTreeA) = some ([e, ⟨(0, false, 1), 7, 327⟩], 342)) ∧
      e.off = specInitialDataOffset false true exTreeA + 4 := by
  refine ⟨⟨(0, false, 0), 5, 314⟩, by decide, ?_⟩
  have h := (claim5_theorem false true exTreeA).2
    [⟨(0, false, 0), 5, 314⟩, ⟨(0, false, 1), 7, 327⟩] 342 (by decide)
    ⟨(0, false, 0), 5, 314⟩ (by decide)
  simpa using h

/-- Claim C6: for a 1-byte tile body the emitted trailer is NOT the last
four bytes of the body (it contains three leader bytes). -/
theorem claim6_counterexample :
    emitTileBytes true 1 [170] ≠ le32 1 ++ [170] ++ lastFour [170] := by
  decide

/-- Claim C6 (amended): in ghost mode every non-sparse tile is emitted
as a 4-byte little-endian byte-count leader, the body, and a 4-byte
trailer equal to the last four bytes of leader-plus-body — which equals
the last four bytes of the body exactly when the body has at least four
bytes; with the ghost area disabled only the body is emitted. -/
theorem claim6_theorem (bc : Nat) (body : List Nat) (hlen : body.length = bc) (hpos : 0 < bc) :
    emitTileBytes true bc body = le32 bc ++ body ++ lastFour (le32 bc ++ body) ∧
    (4 ≤ bc → emitTileBytes true bc body = le32 bc ++ body ++ lastFour body) ∧
    emitTileBytes false bc body = body := by
  have hfl : (le32 bc ++ body).length = 4 + bc := by simp [le32, hlen]; omega
  have hdrop : ((le32 bc ++ body).drop bc).length = 4 := by
    rw [List.length_drop, hfl]; omega
  have htake : ((le32 bc ++ body).drop bc).take 4 = (le32 bc ++ body).drop bc :=
    List.take_of_length_le (by rw [hdrop])
  have hlf : lastFour (le32 bc ++ body) = (le32 bc ++ body).drop bc := by
    unfold lastFour; rw [hfl]; congr 1; omega
  refine ⟨?_, ?_, ?_⟩
  · simp only [emitTileBytes, hpos, if_true, if_pos rfl, htake, hlf]
  · intro h4
    simp only [emitTileBytes, hpos, if_true, if_pos rfl, htake]
    congr 1
    rw [List.drop_append_eq_append_drop]
    have : (le32 bc).drop bc = [] := by
      apply List.drop_eq_nil_of_le; simp [le32]; omega
    rw [this, List.nil_append]
    unfold lastFour
    congr 1
    simp [le32, hlen]
  · simp [emitTileBytes, hpos]

/-- Witness for `claim6_theorem` at a 5-byte body. -/
theorem claim6_witness :
    emitTileBytes true 5 [1, 2, 3, 4, 5] =
      le32 5 ++ [1, 2, 3, 4, 5] ++ lastFour (le32 5 ++ [1, 2, 3, 4, 5]) ∧
    emitTileBytes true 5 [1, 2, 3, 4, 5] = le32 5 ++ [1, 2, 3, 4, 5] ++ lastFour [1, 2, 3, 4, 5] ∧
    emitTileBytes false 5 [1, 2, 3, 4, 5] = [1, 2, 3, 4, 5] := by
  have h := claim6_theorem 5 [1, 2, 3, 4, 5] (by decide) (by decide)
  exact ⟨h.1, h.2.1 (by decide), h.2.2⟩

/-- Claim C8: an IFD with `planar_configuration == 2` but a single
sample does NOT force the ghost area off — `effectiveGhost` stays `true`
under the default configuration on `exTreeC`. -/
theorem claim8_counterexample :
    exTreeC.main.PlanarConfiguration = 2 ∧ effectiveGhost DefaultConfig exTreeC = true := by
  constructor
  · decide
  · rfl

/-- Claim C8 (amended): the ghost area is forced off exactly when the
main IFD or an overview has `planar_configuration == 2` AND more than
one sample (`nPlanes > 1`); otherwise the configured flag is used.  With
the ghost area on, the header stores first-IFD offset `8 + ghost_size`
(classic) or `16 + ghost_size` (BigTIFF) and then one of the two fixed
ghost blocks. -/
theorem claim8_theorem (cfg : Config) (t : IFDTree) (le maskP : Bool) :
    ((t.main.PlanarConfiguration = 2 ∧ 1 < t.main.SamplesPerPixel) ∨
      (∃ p ∈ t.overviews, p.1.PlanarConfiguration = 2 ∧ 1 < p.1.SamplesPerPixel) →
        effectiveGhost cfg t = false) ∧
    (¬ ((t.main.PlanarConfiguration = 2 ∧ 1 < t.main.SamplesPerPixel) ∨
      (∃ p ∈ t.overviews, p.1.PlanarConfiguration = 2 ∧ 1 < p.1.SamplesPerPixel)) →
        effectiveGhost cfg t = cfg.WithGDALGhostArea) ∧
    (get32 le (((writeHeaderBytes le false true maskP).drop 4).take 4) =
        8 + (if maskP then ghostmask.length else ghost.length)) ∧
    ((writeHeaderBytes le false true maskP).drop 8 = ghostBytes maskP) ∧
    (get64 le (((writeHeaderBytes le true true maskP).drop 8).take 8) =
        16 + (if maskP then ghostmask.length else ghost.length)) ∧
    ((writeHeaderBytes le true true maskP).drop 16 = ghostBytes maskP) := by
  have hiff : (1 < nPlanes t.main ∨ ∃ p ∈ t.overviews, 1 < nPlanes p.1) ↔
      ((t.main.PlanarConfiguration = 2 ∧ 1 < t.main.SamplesPerPixel) ∨
        (∃ p ∈ t.overviews, p.1.PlanarConfiguration = 2 ∧ 1 < p.1.SamplesPerPixel)) := by
    unfold nPlanes
    constructor
    · rintro (h | ⟨p, hp, h⟩)
      · by_cases h2 : t.main.PlanarConfiguration = 2
        · exact Or.inl ⟨h2, by simpa [h2] using h⟩
        · simp [h2] at h
      · by_cases h2 : p.1.PlanarConfiguration = 2
        · exact Or.inr ⟨p, hp, h2, by simpa [h2] using h⟩
        · simp [h2] at h
    · rintro (⟨h2, h⟩ | ⟨p, hp, h2, h⟩)
      · exact Or.inl (by simp [h2, h])
      · exact Or.inr ⟨p, hp, by simp [h2, h]⟩
  refine ⟨?_, ?_, ?_, ?_, ?_, ?_⟩
  · intro h
    unfold effectiveGhost
    rw [if_pos (hiff.mpr h)]
  · intro h
    unfold effectiveGhost
    rw [if_neg (fun hc => h (hiff.mp hc))]
  · cases le <;> cases maskP <;> decide
  · cases le <;> cases maskP <;> decide
  · cases le <;> cases maskP <;> decide
  · cases le <;> cases maskP <;> decide

/-- Witness for `claim8_theorem`: a separate-plane 3-sample main IFD
forces the ghost area off even though the configuration requests it. -/
theorem claim8_witness :
    effectiveGhost DefaultConfig { main := { PlanarConfiguration := 2, SamplesPerPixel := 3 } } = false ∧
    get32 true (((writeHeaderBytes true false true false).drop 4).take 4) = 8 + ghost.length := by
  constructor
  · exact (claim8_theorem DefaultConfig { main := { PlanarConfiguration := 2, SamplesPerPixel := 3 } }
      true false).1 (Or.inl (by decide))
  · exact (claim8_theorem DefaultConfig { main := { PlanarConfiguration := 2, SamplesPerPixel := 3 } }
      true false).2.2.1

/-- Claim C2, evaluated on a main image with three overviews: the
overview loop advances `off` by the MAIN directory's `tagSize` (90
bytes) instead of each overview's own (102 bytes), so from the second
overview on the writer believes the directories sit 12 (then 24) bytes
before their true positions, and the next-IFD pointer written into
overview 1 (474) misses overview 2's true start (486); the offset
computer accounted the true starts (192, 282, 384, 486). -/
theorem claim2_theorem :
    (writerDirRecs false true exTreeD).map DirRec.offArg = [192, 282, 372, 462] ∧
    (writerDirRecs false true exTreeD).map DirRec.nextPtr = [282, 384, 474, 0] ∧
    actualDirStarts false true exTreeD = [192, 282, 384, 486] ∧
    plannedDirStarts false true exTreeD = [192, 282, 384, 486] ∧
    ¬ claimC2Prop false true exTreeD := by
  refine ⟨by decide, by decide, by decide, by decide, ?_⟩
  intro h
  have h2 := h.2
  rw [show (writerDirRecs false true exTreeD).map DirRec.nextPtr = [282, 384, 474, 0] from by decide,
    show actualDirStarts false true exTreeD = [192, 282, 384, 486] from by decide] at h2
  exact absurd h2 (by decide)

/-- `isOkE` characterises the existence of an `ok` payload. -/
theorem isOkE_iff {ε α : Type} (r : Except ε α) : isOkE r = true ↔ ∃ l, r = .ok l := by
  cases r <;> simp [isOkE]

/-- Appending on the right does not change the head of a nonempty
accumulator. -/
theorem getD_append_of_ne_nil {α : Type} [Inhabited α] (acc : List α) (l : List α)
    (h : acc ≠ []) : (acc ++ l).getD 0 default = acc.getD 0 default := by
  cases acc with
  | nil => exact absurd rfl h
  | cons a acc2 => rfl

/-- The first file's IFDs are appended unchecked and untagged. -/
theorem loadFileIFDs_zero : ∀ (f acc : List LoaderIFD), loadFileIFDs 0 f acc = .ok (acc ++ f) := by
  intro f
  induction f with
  | nil => intro acc; simp [loadFileIFDs]
  | cons i rest ih =>
    intro acc
    rw [loadFileIFDs, if_neg (by simp)]
    rw [ih (acc ++ [i])]
    simp

/-- For a later file, the loader accepts exactly when every IFD is
strictly smaller (in both dimensions) than the accumulator's first IFD,
appending the tagged IFDs; otherwise it fails. -/
theorem loadFileIFDs_pos (it : Nat) (hit : it ≠ 0) :
    ∀ (f acc : List LoaderIFD), acc ≠ [] →
      ((∀ i ∈ f, i.ImageLength < (acc.getD 0 default).ImageLength ∧
          i.ImageWidth < (acc.getD 0 default).ImageWidth) →
        loadFileIFDs it f acc = .ok (acc ++ f.map tagReduced)) ∧
      ((¬ ∀ i ∈ f, i.ImageLength < (acc.getD 0 default).ImageLength ∧
          i.ImageWidth < (acc.getD 0 default).ImageWidth) →
        ∃ e, loadFileIFDs it f acc = .error e) := by
  intro f
  induction f with
  | nil =>
    intro acc hacc
    refine ⟨fun _ => by simp [loadFileIFDs], fun hno => absurd (by simp) hno⟩
  | cons i rest ih =>
    intro acc hacc
    constructor
    · intro hall
      have hi := hall i (by simp)
      rw [loadFileIFDs, if_pos hit, if_neg (by omega)]
      have hrec := (ih (acc ++ [tagReduced i]) (by simp)).1
      rw [getD_append_of_ne_nil acc [tagReduced i] hacc] at hrec
      rw [hrec (fun j hj => hall j (by simp [hj]))]
      simp
    · intro hno
      rw [loadFileIFDs, if_pos hit]
      by_cases hi : (acc.getD 0 default).ImageLength ≤ i.ImageLength ∨
          (acc.getD 0 default).ImageWidth ≤ i.ImageWidth
      · rw [if_pos hi]
        exact ⟨_, rfl⟩
      · rw [if_neg hi]
        have hrec := (ih (acc ++ [tagReduced i]) (by simp)).2
        rw [getD_append_of_ne_nil acc [tagReduced i] hacc] at hrec
        apply hrec
        intro hall
        exact hno (fun j hj => by
          rcases List.mem_cons.mp hj with rfl | hj2
          · omega
          · exact hall j hj2)

/-- The outer file loop for files numbered from 1 on: success iff every
IFD of every remaining file is strictly smaller than the accumulator's
first IFD, in which case all of them are appended tagged. -/
theorem loadFilesFrom_pos :
    ∀ (files : List (List LoaderIFD)) (it : Nat) (acc : List LoaderIFD), it ≠ 0 → acc ≠ [] →
      ((∀ fl ∈ files, ∀ i ∈ fl, i.ImageLength < (acc.getD 0 default).ImageLength ∧
          i.ImageWidth < (acc.getD 0 default).ImageWidth) →
        loadFilesFrom it files acc = .ok (acc ++ (files.flatMap fun fl => fl.map tagReduced))) ∧
      ((¬ ∀ fl ∈ files, ∀ i ∈ fl, i.ImageLength < (acc.getD 0 default).ImageLength ∧
          i.ImageWidth < (acc.getD 0 default).ImageWidth) →
        ∃ e, loadFilesFrom it files acc = .error e) := by
  intro files
  induction files with
  | nil =>
    intro it acc hit hacc
    exact ⟨fun _ => by simp [loadFilesFrom], fun hno => absurd (by simp) hno⟩
  | cons fl rest ih =>
    intro it acc hit hacc
    constructor
    · intro hall
      rw [loadFilesFrom]
      rw [(loadFileIFDs_pos it hit fl acc hacc).1 (hall fl (by simp))]
      have hrec := (ih (it + 1) (acc ++ fl.map tagReduced) (by omega) (by simp [hacc])).1
      rw [getD_append_of_ne_nil acc (fl.map tagReduced) hacc] at hrec
      show loadFilesFrom (it + 1) rest (acc ++ fl.map tagReduced) = _
      rw [hrec (fun fl2 h2 => hall fl2 (by simp [h2]))]
      simp
    · intro hno
      rw [loadFilesFrom]
      by_cases hfl : ∀ i ∈ fl, i.ImageLength < (acc.getD 0 default).ImageLength ∧
          i.ImageWidth < (acc.getD 0 default).ImageWidth
      · rw [(loadFileIFDs_pos it hit fl acc hacc).1 hfl]
        have hrec := (ih (it + 1) (acc ++ fl.map tagReduced) (by omega) (by simp [hacc])).2
        rw [getD_append_of_ne_nil acc (fl.map tagReduced) hacc] at hrec
        show ∃ e, loadFilesFrom (it + 1) rest (acc ++ fl.map tagReduced) = .error e
        apply hrec
        intro hall
        exact hno (fun fl2 h2 => by
          rcases List.mem_cons.mp h2 with rfl | h3
          · exact hfl
          · exact hall fl2 h3)
      · rcases (loadFileIFDs_pos it hit fl acc hacc).2 hfl with ⟨e, he⟩
        rw [he]
        exact ⟨e, rfl⟩

/-- Claim C9 as stated is false on `exTifs9`. -/
theorem claim9_counterexample : ¬ claimC9Prop exTifs9 := by
  intro h
  rcases h (by decide) with ⟨l, hl⟩
  have : isOkE (loadMultipleTIFFs exTifs9) = true := (isOkE_iff _).mpr ⟨l, hl⟩
  exact absurd this (by decide)

/-- Claim C9 (amended): with multiple input files, every IFD of a file
other than the first must be strictly smaller, in both dimensions, than
the FIRST IFD OF THE FIRST FILE; the loader rejects the input otherwise,
and on success the additional IFDs are appended with
`subfile_type |= reduced_image` applied at load time. -/
theorem claim9_theorem (i0 : LoaderIFD) (f0 : List LoaderIFD) (rest : List (List LoaderIFD))
    (hrest : rest ≠ []) :
    ((∀ fl ∈ rest, ∀ i ∈ fl, i.ImageLength < i0.ImageLength ∧ i.ImageWidth < i0.ImageWidth) →
      loadMultipleTIFFs ((i0 :: f0) :: rest) =
        .ok ((i0 :: f0) ++ (rest.flatMap fun fl => fl.map tagReduced))) ∧
    ((¬ ∀ fl ∈ rest, ∀ i ∈ fl, i.ImageLength < i0.ImageLength ∧ i.ImageWidth < i0.ImageWidth) →
      ∃ e, loadMultipleTIFFs ((i0 :: f0) :: rest) = .error e) ∧
    (∀ i : LoaderIFD, (tagReduced i).SubfileType % 2 = 1) := by
  have hmain : loadMultipleTIFFs ((i0 :: f0) :: rest) = loadFilesFrom 1 rest (i0 :: f0) := by
    unfold loadMultipleTIFFs
    rw [loadFilesFrom, loadFileIFDs_zero]
    simp
  have hget : ((i0 :: f0) : List LoaderIFD).getD 0 default = i0 := rfl
  have h := loadFilesFrom_pos rest 1 (i0 :: f0) (by omega) (by simp)
  rw [hget] at h
  refine ⟨fun hall => ?_, fun hno => ?_, fun i => ?_⟩
  · rw [hmain, h.1 hall]
  · rw [hmain]; exact h.2 hno
  · show (i.SubfileType ||| 1) % 2 = 1
    have hb := Nat.testBit_lor i.SubfileType 1 0
    simp only [Nat.testBit_zero] at hb
    rcases Nat.mod_two_eq_zero_or_one (i.SubfileType ||| 1) with h2 | h2
    · rw [h2] at hb
      simp at hb
    · exact h2

/-- Witness for `claim9_theorem`: a 100x100 first file and a strictly
smaller 50x50 second file load successfully, with the second file's IFD
tagged `reduced_image`. -/
theorem claim9_witness :
    loadMultipleTIFFs [[⟨0, 100, 100⟩], [⟨0, 50, 50⟩]] =
      .ok (([⟨0, 100, 100⟩] : List LoaderIFD) ++
        ([[⟨0, 50, 50⟩]].flatMap fun fl => fl.map tagReduced)) ∧
    (tagReduced ⟨0, 50, 50⟩).SubfileType % 2 = 1 := by
  have h := claim9_theorem ⟨0, 100, 100⟩ [] [[⟨0, 50, 50⟩]] (by decide)
  exact ⟨h.1 (by decide), h.2.2 ⟨0, 50, 50⟩⟩

/-- A completed assignment run never hands out an offset below its
starting offset, and the assigned offsets grow along the trace: each
non-sparse tile's offset plus its byte count (plus the 8 ghost bytes)
is at most every later non-sparse tile's offset. -/
theorem assignTrace_mono (g big : Bool) (t : IFDTree) :
    ∀ (refs : List TileRef) (off : Nat) (tr : List TraceEntry) (fin : Nat),
      assignTrace g big t refs off = some (tr, fin) →
      (∀ e ∈ tr, 0 < e.bc → off ≤ e.off) ∧
      List.Pairwise (fun a b => 0 < a.bc → 0 < b.bc →
        a.off + a.bc + (if g then 8 else 0) ≤ b.off) tr := by
  intro refs
  induction refs with
  | nil =>
    intro off tr fin h
    simp only [assignTrace, Option.some.injEq, Prod.mk.injEq] at h
    rw [← h.1]
    exact ⟨by simp, by simp⟩
  | cons r rest ih =>
    intro off tr fin h
    rcases (assignTrace_cons_some g big t r rest off tr fin).mp h with
      ⟨hbc, _, tr2, h2, htr⟩ | ⟨hbc, tr2, h2, htr⟩
    · have IH := ih _ tr2 fin h2
      subst htr
      constructor
      · intro e he hbe
        rcases List.mem_cons.mp he with rfl | he2
        · exact le_refl off
        · have := IH.1 e he2 hbe
          omega
      · refine List.Pairwise.cons ?_ IH.2
        intro b hb _ hbb
        have := IH.1 b hb hbb
        simp only []
        omega
    · have IH := ih _ tr2 fin h2
      subst htr
      constructor
      · intro e he hbe
        rcases List.mem_cons.mp he with rfl | he2
        · simp only [] at hbe
          omega
        · exact IH.1 e he2 hbe
      · refine List.Pairwise.cons ?_ IH.2
        intro b _ hbhead _
        simp only [] at hbhead
        omega

/-- Claim C4's strictness fails on `exTreeA`: the two tiles are assigned
offsets 314 and 327 = 314 + 5 + 8 — adjacent non-sparse tiles meet the
bound with equality, not strictly. -/
theorem claim4_counterexample : ¬ claimC4Prop true false exTreeA := by
  intro h
  have h2 := h [⟨(0, false, 0), 5, 314⟩, ⟨(0, false, 1), 7, 327⟩] 342 (by decide)
    ⟨0, by decide⟩ ⟨1, by decide⟩ (by decide) (by decide) (by decide)
  exact absurd h2 (by decide)

/-- Claim C4 (amended): for any two non-sparse tiles A before B in the
interleave sequence, A's assigned offset plus its byte count, plus 8
leader/trailer bytes in ghost mode, is AT MOST B's assigned offset
(equality occurs exactly when B is the next non-sparse tile after A). -/
theorem claim4_theorem (g big : Bool) (t : IFDTree) (tr : List TraceEntry) (fin : Nat)
    (h : assignTrace g big t (tiles t) (initialDataOffset big g t) = some (tr, fin)) :
    ∀ (i j : Fin tr.length), (i : Nat) < (j : Nat) →
      0 < (tr.get i).bc → 0 < (tr.get j).bc →
      (tr.get i).off + (tr.get i).bc + (if g then 8 else 0) ≤ (tr.get j).off := by
  have hp := (assignTrace_mono g big t (tiles t) _ tr fin h).2
  intro i j hij hbi hbj
  exact (List.pairwise_iff_get.mp hp i j hij) hbi hbj

/-- Witness for `claim4_theorem` on `exTreeA`: 314 + 5 + 8 ≤ 327. -/
theorem claim4_witness :
    assignTrace true false exTreeA (tiles exTreeA) (initialDataOffset false true exTreeA) =
      some ([⟨(0, false, 0), 5, 314⟩, ⟨(0, false, 1), 7, 327⟩], 342) ∧
    (314 : Nat) + 5 + 8 ≤ 327 := by
  refine ⟨by decide, ?_⟩
  have h := claim4_theorem true false exTreeA
    [⟨(0, false, 0), 5, 314⟩, ⟨(0, false, 1), 7, 327⟩] 342 (by decide)
    ⟨0, by decide⟩ ⟨1, by decide⟩ (by decide) (by decide) (by decide)
  simpa using h

/-- The offset computer surfaces a failed band/mask check as an error. -/
theorem computeImageryOffsets_error (g : Bool) (t : IFDTree) (big : Bool) (e : String)
    (hb : bandMaskCheck t = some e) : computeImageryOffsets g t big = .error e := by
  rw [computeImageryOffsets, hb]

/-- The offset computer returns the completed assignment run as is. -/
theorem computeImageryOffsets_ok (g : Bool) (t : IFDTree) (big : Bool)
    (tr : List TraceEntry) (fin : Nat) (hb : bandMaskCheck t = none)
    (h2 : assignTrace g big t (tiles t) (initialDataOffset big g t) = some (tr, fin)) :
    computeImageryOffsets g t big = .ok (big, tr, fin) := by
  rw [computeImageryOffsets, hb]
  split
  · rename_i v2 hv2
    exact absurd hv2 (by simp)
  · split
    · rename_i tr2 fin2 hv2
      rw [h2] at hv2
      cases hv2
      rfl
    · rename_i hv2
      rw [h2] at hv2
      cases hv2

/-- An aborted 32-bit assignment run makes the offset computer restart
itself in BigTIFF mode. -/
theorem computeImageryOffsets_restart (g : Bool) (t : IFDTree) (big : Bool)
    (hb : bandMaskCheck t = none)
    (h2 : assignTrace g big t (tiles t) (initialDataOffset big g t) = none) :
    computeImageryOffsets g t big = computeImageryOffsets g t true := by
  rw [computeImageryOffsets, hb]
  split
  · rename_i v2 hv2
    exact absurd hv2 (by simp)
  · split
    · rename_i tr2 fin2 hv2
      rw [h2] at hv2
      cases hv2
    · rfl

/-- Claim C3: the offset computation always terminates (it is a total
function of the tree); the BigTIFF-promoted rerun can never trigger a
second promotion (the loop never aborts in BigTIFF mode); when the
consistency checks pass the computation always returns a result — the
32-bit overflow is answered by a single restart in BigTIFF mode, never
surfaced as an error; and every error it can return comes from the
band/mask checks, not from overflow. -/
theorem claim3_theorem :
    (∀ (g : Bool) (t : IFDTree) (refs : List TileRef) (off : Nat),
      assignTrace g true t refs off ≠ none) ∧
    (∀ (g : Bool) (t : IFDTree) (big : Bool), bandMaskCheck t = none →
      ∃ b2 tr fin, computeImageryOffsets g t big = .ok (b2, tr, fin)) ∧
    (∀ (g : Bool) (t : IFDTree), bandMaskCheck t = none →
      assignTrace g false t (tiles t) (initialDataOffset false g t) = none →
      computeImageryOffsets g t false = computeImageryOffsets g t true ∧
      ∃ tr fin, computeImageryOffsets g t false = .ok (true, tr, fin)) ∧
    (∀ (g : Bool) (t : IFDTree) (big : Bool) (e : String),
      computeImageryOffsets g t big = .error e → bandMaskCheck t = some e) := by
  have htrue : ∀ (g : Bool) (t : IFDTree), bandMaskCheck t = none →
      ∃ tr fin, computeImageryOffsets g t true = .ok (true, tr, fin) := by
    intro g t hb
    rcases h2 : assignTrace g true t (tiles t) (initialDataOffset true g t) with _ | ⟨tr, fin⟩
    · exact absurd h2 (assignTrace_big_ne_none g t _ _)
    · exact ⟨tr, fin, computeImageryOffsets_ok g t true tr fin hb h2⟩
  refine ⟨fun g t => assignTrace_big_ne_none g t, fun g t big hb => ?_,
    fun g t hb hnone => ?_, fun g t big e he => ?_⟩
  · cases big
    · rcases h2 : assignTrace g false t (tiles t) (initialDataOffset false g t) with _ | ⟨tr, fin⟩
      · rcases htrue g t hb with ⟨tr, fin, h3⟩
        exact ⟨true, tr, fin, by rw [computeImageryOffsets_restart g t false hb h2, h3]⟩
      · exact ⟨false, tr, fin, computeImageryOffsets_ok g t false tr fin hb h2⟩
    · rcases htrue g t hb with ⟨tr, fin, h3⟩
      exact ⟨true, tr, fin, h3⟩
  · have hstep := computeImageryOffsets_restart g t false hb hnone
    refine ⟨hstep, ?_⟩
    rcases htrue g t hb with ⟨tr, fin, h3⟩
    exact ⟨tr, fin, by rw [hstep, h3]⟩
  · rcases hb : bandMaskCheck t with _ | e2
    · exfalso
      have : ∃ b2 tr fin, computeImageryOffsets g t big = .ok (b2, tr, fin) := by
        cases big
        · rcases h2 : assignTrace g false t (tiles t) (initialDataOffset false g t) with _ | ⟨tr, fin⟩
          · rcases htrue g t hb with ⟨tr, fin, h3⟩
            exact ⟨true, tr, fin, by rw [computeImageryOffsets_restart g t false hb h2, h3]⟩
          · exact ⟨false, tr, fin, computeImageryOffsets_ok g t false tr fin hb h2⟩
        · rcases htrue g t hb with ⟨tr, fin, h3⟩
          exact ⟨true, tr, fin, h3⟩
      rcases this with ⟨b2, tr, fin, h3⟩
      rw [h3] at he
      exact absurd he (by simp)
    · have h3 := computeImageryOffsets_error g t big e2 hb
      rw [h3] at he
      simp only [Except.error.injEq] at he
      rw [he]

/-- Witness for `claim3_theorem` on `exTreeA` (checks pass by
computation): the classic-mode computation returns a result, and the
BigTIFF loop cannot abort. -/
theorem claim3_witness :
    (∃ b2 tr fin, computeImageryOffsets true exTreeA false = .ok (b2, tr, fin)) ∧
    assignTrace true true exTreeA (tiles exTreeA) 8 ≠ none := by
  exact ⟨claim3_theorem.2.1 true exTreeA false (by decide),
    claim3_theorem.1 true exTreeA (tiles exTreeA) 8⟩

/-- Every list member appears in the enumeration at some index. -/
theorem exists_enumFrom_of_mem {α : Type} :
    ∀ (l : List α) (x : α) (n : Nat), x ∈ l → ∃ i, (i, x) ∈ l.enumFrom n := by
  intro l
  induction l with
  | nil => intro x n hx; cases hx
  | cons a l ih =>
    intro x n hx
    rcases List.mem_cons.mp hx with rfl | hx2
    · exact ⟨n, by simp⟩
    · rcases ih x (n + 1) hx2 with ⟨i, hi⟩
      exact ⟨i, by simp [hi]⟩

/-- If any element of the list maps to an error, the whole traversal is
an error (`Except` short-circuits at the first failing element). -/
theorem mapM_error_of_mem {α β : Type} (f : α → Except String β) :
    ∀ (l : List α) (x : α), x ∈ l → (∃ e, f x = .error e) →
      ∃ e2, l.mapM f = .error e2 := by
  intro l
  induction l with
  | nil => intro x hx; cases hx
  | cons a l ih =>
    intro x hx he
    rcases he with ⟨e, he⟩
    rcases List.mem_cons.mp hx with rfl | hx2
    · exact ⟨e, by rw [List.mapM_cons, he]; rfl⟩
    · rcases hfa : f a with ea | b
      · exact ⟨ea, by rw [List.mapM_cons, hfa]; rfl⟩
      · rcases ih x hx2 ⟨e, he⟩ with ⟨e2, h2⟩
        exact ⟨e2, by rw [List.mapM_cons, hfa, h2]; rfl⟩

/-- Claim C10: a non-empty configured `PlanarInterleaving` makes the
rewrite fail with "invalid planar interleaving" on any tree whose main
IFD (or any overview) is not planar-separate and has no interleaving
stored yet (the only state the API can produce for such an IFD), even
when the supplied partition is the default valid one; no output is
produced, and `SetPlanarInterleaving` rejects every non-planar-separate
IFD outright. -/
theorem claim10_theorem (cfg : Config) (t : IFDTree) (bodies : OffKey → List Nat)
    (hpi : cfg.PlanarInterleaving ≠ []) :
    (t.main.PlanarConfiguration ≠ 2 → t.main.planarInterleaving = [] →
      rewriteIFDTree cfg t bodies =
        .error ("invalid planar interleaving: " ++ "ifd is not PLANARCONFIG_SEPARATE")) ∧
    ((t.main.PlanarConfiguration ≠ 2 ∧ t.main.planarInterleaving = []) ∨
      (∃ p ∈ t.overviews, p.1.PlanarConfiguration ≠ 2 ∧ p.1.planarInterleaving = []) →
      ∃ e, rewriteIFDTree cfg t bodies = .error e) ∧
    (∀ (d : IFDData) (hm : Bool) (pi2 : List (List Int)), d.PlanarConfiguration ≠ 2 →
      SetPlanarInterleaving d hm pi2 = .error "ifd is not PLANARCONFIG_SEPARATE") := by
  have hSPI : ∀ (d : IFDData) (hm : Bool) (pi2 : List (List Int)), d.PlanarConfiguration ≠ 2 →
      SetPlanarInterleaving d hm pi2 = .error "ifd is not PLANARCONFIG_SEPARATE" := by
    intro d hm pi2 hd
    rw [SetPlanarInterleaving, if_pos hd]
  have hmainerr : t.main.PlanarConfiguration ≠ 2 → t.main.planarInterleaving = [] →
      rewriteIFDTree cfg t bodies =
        .error ("invalid planar interleaving: " ++ "ifd is not PLANARCONFIG_SEPARATE") := by
    intro hd hempty
    have hm1 : setPIMain cfg t =
        .error ("invalid planar interleaving: " ++ "ifd is not PLANARCONFIG_SEPARATE") := by
      rw [setPIMain, if_pos hempty, hSPI t.main t.mainMask.isSome cfg.PlanarInterleaving hd]
    have hset : setPIs cfg t =
        .error ("invalid planar interleaving: " ++ "ifd is not PLANARCONFIG_SEPARATE") := by
      rw [setPIs, if_neg hpi]
      show (setPIMain cfg t >>= _) = _
      rw [hm1]
      rfl
    rw [rewriteIFDTree]
    show (setPIs cfg t >>= _) = _
    rw [hset]
    rfl
  refine ⟨hmainerr, ?_, hSPI⟩
  rintro (⟨hd, hempty⟩ | ⟨p, hp, hd, hempty⟩)
  · exact ⟨_, hmainerr hd hempty⟩
  · rcases hset : setPIs cfg t with e | t2
    · refine ⟨e, ?_⟩
      rw [rewriteIFDTree]
      show (setPIs cfg t >>= _) = _
      rw [hset]
      rfl
    · exfalso
      rw [setPIs, if_neg hpi] at hset
      rcases hm2 : setPIMain cfg t with e2 | m2
      · rw [hm2] at hset
        exact Except.noConfusion
          (show (Except.error e2 : Except String IFDTree) = Except.ok t2 from hset)
      · rw [hm2] at hset
        rcases exists_enumFrom_of_mem t.overviews p 0 hp with ⟨i, hi⟩
        have hovr : ∃ e2, t.overviews.enum.mapM (setPIOvr cfg) = .error e2 := by
          apply mapM_error_of_mem (setPIOvr cfg) t.overviews.enum (i, p) hi
          refine ⟨"invalid planar interleaving for overview " ++ toString i ++
            ": " ++ "ifd is not PLANARCONFIG_SEPARATE", ?_⟩
          show setPIOvr cfg (i, p) = _
          rw [setPIOvr]
          show (if p.1.planarInterleaving = [] then _ else _) = _
          rw [if_pos hempty, hSPI p.1 p.2.isSome cfg.PlanarInterleaving hd]
        rcases hovr with ⟨e3, hovr⟩
        rw [hovr] at hset
        exact Except.noConfusion
          (show (Except.error e3 : Except String IFDTree) = Except.ok t2 from hset)

/-- Witness for `claim10_theorem`: the default-shaped partition `[[0]]`
on the contiguous tree `exTreeE` is rejected before any output. -/
theorem claim10_witness :
    rewriteIFDTree { DefaultConfig with PlanarInterleaving := [[0]] } exTreeE (fun _ => []) =
      .error ("invalid planar interleaving: " ++ "ifd is not PLANARCONFIG_SEPARATE") := by
  exact (claim10_theorem { DefaultConfig with PlanarInterleaving := [[0]] } exTreeE
    (fun _ => []) (by decide)).1 (by decide) (by decide)

/-- Every entry produced by `ovrEntriesFrom` is the `k`-th overview,
with level `j + k + 1`. -/
theorem mem_ovrEntriesFrom (hm : Bool) :
    ∀ (l : List (IFDData × Option IFDData)) (j : Nat) (e : Entry), e ∈ ovrEntriesFrom hm j l →
      ∃ k, k < l.length ∧
        e = ⟨j + k + 1, (l.getD k default).1, if hm then (l.getD k default).2 else none⟩ := by
  intro l
  induction l with
  | nil => intro j e he; cases he
  | cons a rest ih =>
    intro j e he
    rcases List.mem_cons.mp he with rfl | he2
    · exact ⟨0, by simp, by simp [List.getD]⟩
    · rcases ih (j + 1) e he2 with ⟨k, hk, hke⟩
      refine ⟨k + 1, by simp; omega, ?_⟩
      rw [hke]
      simp [List.getD]
      omega

/-- Levels increase along `ovrEntriesFrom`. -/
theorem pairwise_lvl_ovrEntriesFrom (hm : Bool) :
    ∀ (l : List (IFDData × Option IFDData)) (j : Nat),
      List.Pairwise (fun a b => a.lvl < b.lvl) (ovrEntriesFrom hm j l) := by
  intro l
  induction l with
  | nil => intro j; exact List.Pairwise.nil
  | cons a rest ih =>
    intro j
    refine List.Pairwise.cons ?_ (ih (j + 1))
    intro b hb
    rcases mem_ovrEntriesFrom hm rest (j + 1) b hb with ⟨k, _, hbe⟩
    rw [hbe]
    show j + 1 < j + 1 + k + 1
    omega

/-- Each interleaving entry's level addresses, through `ifdPairAt`, the
IFD pair it was built from; levels are bounded by the overview count and
the entry's mask is the looked-up mask filtered by the main mask's
presence. -/
theorem ifdInterlacing_lookup (t : IFDTree) : ∀ e ∈ ifdInterlacing t,
    e.lvl ≤ t.overviews.length ∧ (ifdPairAt t e.lvl).1 = e.ifd ∧
      e.mask = (if t.mainMask.isSome then (ifdPairAt t e.lvl).2 else none) := by
  intro e he
  rcases List.mem_append.mp he with h1 | h2
  · rcases mem_ovrEntriesFrom t.mainMask.isSome t.overviews 0 e (List.mem_reverse.mp h1) with
      ⟨k, hk, hke⟩
    subst hke
    have hpair : ifdPairAt t (0 + k + 1) = t.overviews.getD k default := by
      rw [ifdPairAt, if_neg (by omega)]
      congr 1
      omega
    refine ⟨show 0 + k + 1 ≤ _ by omega, ?_, ?_⟩
    · show (ifdPairAt t (0 + k + 1)).1 = (t.overviews.getD k default).1
      rw [hpair]
    · show (if t.mainMask.isSome then (t.overviews.getD k default).2 else none) =
        (if t.mainMask.isSome then (ifdPairAt t (0 + k + 1)).2 else none)
      rw [hpair]
  · rw [List.mem_singleton.mp h2]
    exact ⟨Nat.zero_le _, by rw [ifdPairAt, if_pos rfl], by rw [ifdPairAt, if_pos rfl]⟩

/-- Emission position of the levels: along `ifdInterlacing` the
`levelRank` strictly increases (smallest overview first, main last). -/
theorem pairwise_levelRank_interlacing (t : IFDTree) :
    List.Pairwise (fun e1 e2 => levelRank t e1.lvl < levelRank t e2.lvl) (ifdInterlacing t) := by
  rw [ifdInterlacing, List.pairwise_append]
  refine ⟨?_, by simp, ?_⟩
  · rw [List.pairwise_reverse]
    have hp := pairwise_lvl_ovrEntriesFrom t.mainMask.isSome t.overviews 0
    refine List.Pairwise.imp_of_mem ?_ hp
    intro a b ha hb hlt
    rcases mem_ovrEntriesFrom t.mainMask.isSome t.overviews 0 a ha with ⟨k1, hk1, hae⟩
    rcases mem_ovrEntriesFrom t.mainMask.isSome t.overviews 0 b hb with ⟨k2, hk2, hbe⟩
    subst hae
    subst hbe
    show levelRank t (0 + k2 + 1) < levelRank t (0 + k1 + 1)
    have hlt2 : 0 + k1 + 1 < 0 + k2 + 1 := hlt
    unfold levelRank
    omega
  · intro a ha b hb
    rcases mem_ovrEntriesFrom t.mainMask.isSome t.overviews 0 a (List.mem_reverse.mp ha) with
      ⟨k1, hk1, hae⟩
    subst hae
    rw [List.mem_singleton.mp hb]
    show levelRank t (0 + k1 + 1) < levelRank t 0
    unfold levelRank
    omega

/-- Flat-mapping over an enumeration through the second component is
flat-mapping over the list. -/
theorem flatMap_enumFrom_snd {α β : Type} (f : α → List β) :
    ∀ (l : List α) (n : Nat), (l.enumFrom n).flatMap (fun p => f p.2) = l.flatMap f := by
  intro l
  induction l with
  | nil => intro n; rfl
  | cons a rest ih =>
    intro n
    simp only [List.enumFrom_cons, List.flatMap_cons, ih (n + 1)]

/-- First components strictly increase along an enumeration. -/
theorem pairwise_enum_fst {α : Type} (l : List α) :
    List.Pairwise (fun a b => a.1 < b.1) l.enum := by
  rw [List.pairwise_iff_getElem]
  intro i j hi hj hij
  rw [List.getElem_enum, List.getElem_enum]
  exact hij

/-- In a duplicate-free list, positions strictly increase along the
list itself. -/
theorem pairwise_indexOf_lt {l : List Int} (h : l.Nodup) :
    List.Pairwise (fun p q => l.indexOf p < l.indexOf q) l := by
  rw [List.pairwise_iff_getElem]
  intro i j hi hj hij
  rw [List.indexOf_getElem h i hi, List.indexOf_getElem h j hj]
  exact hij

/-- When the flattened partition has no duplicates, the group found by
`findIdx` for an index occurring in group `g` is `g` itself. -/
theorem findIdx_eq_of_nodup_flatten :
    ∀ (pi : List (List Int)) (g : Nat) (l1 : List Int) (p : Int),
      pi.get? g = some l1 → p ∈ l1 → pi.flatten.Nodup →
      pi.findIdx (fun l => l.contains p) = g := by
  intro pi
  induction pi with
  | nil => intro g l1 p hg; cases g <;> simp [List.get?] at hg
  | cons l0 rest ih =>
    intro g l1 p hg hp hnd
    cases g with
    | zero =>
      simp only [List.get?] at hg
      cases hg
      rw [List.findIdx_cons]
      simp [hp]
    | succ g2 =>
      simp only [List.get?] at hg
      have hrest : p ∈ rest.flatten := by
        rcases List.get?_eq_some.mp hg with ⟨hlt, hget⟩
        exact List.mem_flatten.mpr ⟨l1, by rw [← hget]; exact List.getElem_mem hlt, hp⟩
      have hnotl0 : p ∉ l0 := by
        rw [List.flatten_cons] at hnd
        rcases List.nodup_append.mp hnd with ⟨_, _, hd⟩
        intro hc
        exact hd hc hrest
      rw [List.findIdx_cons]
      have hih := ih g2 l1 p hg hp (by
        rw [List.flatten_cons] at hnd
        exact (List.nodup_append.mp hnd).2.1)
      rw [show l0.contains p = false from by simpa using hnotl0]
      simp only [cond_false, hih]

/-- Lists found by `get?` are what `getD` returns. -/
theorem getD_of_get? {α : Type} [Inhabited α] (l : List (List α)) (g : Nat) (l1 : List α)
    (h : l.get? g = some l1) : l.getD g [] = l1 := by
  rw [List.getD_eq_getElem?_getD, ← List.get?_eq_getElem?, h]
  rfl

/-- Membership characterisation for one group's emission. -/
theorem mem_groupTiles (e : Entry) (l1 : List Int) (r : TileRef) :
    r ∈ groupTiles e l1 ↔ ∃ y x p, y < nTilesY e.ifd ∧ x < nTilesX e.ifd ∧ p ∈ l1 ∧
      r = tileAt e (entryMaskIdx e) x y p := by
  unfold groupTiles
  constructor
  · intro h
    rcases List.mem_flatMap.mp h with ⟨y, hy, h2⟩
    rcases List.mem_flatMap.mp h2 with ⟨x, hx, h3⟩
    rcases List.mem_map.mp h3 with ⟨p, hp, h4⟩
    exact ⟨y, x, p, List.mem_range.mp hy, List.mem_range.mp hx, hp, h4.symm⟩
  · rintro ⟨y, x, p, hy, hx, hp, rfl⟩
    exact List.mem_flatMap.mpr ⟨y, List.mem_range.mpr hy,
      List.mem_flatMap.mpr ⟨x, List.mem_range.mpr hx,
        List.mem_map.mpr ⟨p, hp, rfl⟩⟩⟩

/-- Every reference an entry emits carries the entry's level. -/
theorem mem_entryTiles_lvl (e : Entry) (r : TileRef) (h : r ∈ entryTiles e) : r.lvl = e.lvl := by
  rcases List.mem_flatMap.mp h with ⟨l1, _, h2⟩
  rcases (mem_groupTiles e l1 r).mp h2 with ⟨y, x, p, _, _, _, rfl⟩
  unfold tileAt
  by_cases hp : p ≠ entryMaskIdx e <;> simp [hp]

/-- Ranks of an emitted tile: under the tree lookup facts for its entry
and a duplicate-free flattened partition, an emitted tile's group rank is
the group it came from, its in-group rank is the index's position in the
group, and it carries the generating level, row and column. -/
theorem ranks_tileAt (t : IFDTree) (e : Entry) (he : e ∈ ifdInterlacing t)
    (hnd : e.ifd.planarInterleaving.flatten.Nodup)
    (g : Nat) (l1 : List Int) (hg : e.ifd.planarInterleaving.get? g = some l1)
    (p : Int) (hp : p ∈ l1) (x y : Nat) :
    planeKey t (tileAt e (entryMaskIdx e) x y p) = p ∧
    groupRank t (tileAt e (entryMaskIdx e) x y p) = g ∧
    inGroupRank t (tileAt e (entryMaskIdx e) x y p) = l1.indexOf p ∧
    (tileAt e (entryMaskIdx e) x y p).lvl = e.lvl ∧
    (tileAt e (entryMaskIdx e) x y p).y = y ∧
    (tileAt e (entryMaskIdx e) x y p).x = x := by
  obtain ⟨_, hifd, hmask⟩ := ifdInterlacing_lookup t e he
  have hpiA : piAt t e.lvl = e.ifd.planarInterleaving := by
    unfold piAt
    rw [hifd]
  have hmi : maskIdxAt t e.lvl = entryMaskIdx e := by
    unfold maskIdxAt entryMaskIdx
    rw [← hmask, hifd]
  have hlvl : (tileAt e (entryMaskIdx e) x y p).lvl = e.lvl := by
    unfold tileAt
    by_cases hc : p ≠ entryMaskIdx e <;> simp [hc]
  have hy : (tileAt e (entryMaskIdx e) x y p).y = y := by
    unfold tileAt
    by_cases hc : p ≠ entryMaskIdx e <;> simp [hc]
  have hx : (tileAt e (entryMaskIdx e) x y p).x = x := by
    unfold tileAt
    by_cases hc : p ≠ entryMaskIdx e <;> simp [hc]
  have hpk : planeKey t (tileAt e (entryMaskIdx e) x y p) = p := by
    by_cases hc : p ≠ entryMaskIdx e
    · unfold tileAt planeKey
      simp [hc]
    · push_neg at hc
      have ht : tileAt e (entryMaskIdx e) x y p = ⟨e.lvl, true, x, y, 0⟩ := by
        unfold tileAt
        rw [if_neg (by simp [hc])]
      rw [ht]
      unfold planeKey
      simp [hmi, hc]
  have hgr : groupRank t (tileAt e (entryMaskIdx e) x y p) = g := by
    unfold groupRank
    rw [hpk, hlvl, hpiA]
    exact findIdx_eq_of_nodup_flatten e.ifd.planarInterleaving g l1 p hg hp hnd
  refine ⟨hpk, hgr, ?_, hlvl, hy, hx⟩
  unfold inGroupRank
  rw [hpk, hlvl, hpiA, hgr, getD_of_get? e.ifd.planarInterleaving g l1 hg]

/-- One interleaving group's tiles are emitted row-major with the group
order innermost, and all of them share the entry's level and group. -/
theorem pairwise_amendLt_groupTiles (t : IFDTree) (e : Entry) (he : e ∈ ifdInterlacing t)
    (hnd : e.ifd.planarInterleaving.flatten.Nodup)
    (g : Nat) (l1 : List Int) (hg : e.ifd.planarInterleaving.get? g = some l1) :
    List.Pairwise (amendLt t) (groupTiles e l1) := by
  have hndl1 : l1.Nodup := by
    have hmem : l1 ∈ e.ifd.planarInterleaving := by
      rcases List.get?_eq_some.mp hg with ⟨hlt, hget⟩
      rw [← hget]
      exact List.getElem_mem hlt
    exact hnd.sublist (List.sublist_flatten_of_mem hmem)
  have hparts := fun (p : Int) (hp : p ∈ l1) (x y : Nat) =>
    ranks_tileAt t e he hnd g l1 hg p hp x y
  unfold groupTiles
  rw [show ((List.range (nTilesY e.ifd)).flatMap fun y =>
      (List.range (nTilesX e.ifd)).flatMap fun x =>
        l1.map fun p => tileAt e (entryMaskIdx e) x y p) =
    ((List.range (nTilesY e.ifd)).map fun y =>
      (List.range (nTilesX e.ifd)).flatMap fun x =>
        l1.map fun p => tileAt e (entryMaskIdx e) x y p).flatten from rfl]
  rw [List.pairwise_flatten]
  constructor
  · intro L hL
    rcases List.mem_map.mp hL with ⟨y, _, rfl⟩
    rw [show ((List.range (nTilesX e.ifd)).flatMap fun x =>
        l1.map fun p => tileAt e (entryMaskIdx e) x y p) =
      ((List.range (nTilesX e.ifd)).map fun x =>
        l1.map fun p => tileAt e (entryMaskIdx e) x y p).flatten from rfl]
    rw [List.pairwise_flatten]
    constructor
    · intro L2 hL2
      rcases List.mem_map.mp hL2 with ⟨x, _, rfl⟩
      rw [List.pairwise_map]
      refine List.Pairwise.imp_of_mem ?_ (pairwise_indexOf_lt hndl1)
      intro p q hpm hqm hlt
      rcases hparts p hpm x y with ⟨_, hgrp, higp, hlvlp, hyp2, hxp⟩
      rcases hparts q hqm x y with ⟨_, hgrq, higq, hlvlq, hyq, hxq⟩
      exact Or.inr ⟨by rw [hlvlp, hlvlq], Or.inr ⟨by rw [hgrp, hgrq],
        Or.inr ⟨by rw [hyp2, hyq], Or.inr ⟨by rw [hxp, hxq],
          by rw [higp, higq]; exact hlt⟩⟩⟩⟩
    · apply List.pairwise_map.mpr
      refine (List.pairwise_lt_range (nTilesX e.ifd)).imp ?_
      intro x1 x2 hx12 a ha b hb
      rcases List.mem_map.mp ha with ⟨p, hpm, rfl⟩
      rcases List.mem_map.mp hb with ⟨q, hqm, rfl⟩
      rcases hparts p hpm x1 y with ⟨_, hgrp, _, hlvlp, hyp2, hxp⟩
      rcases hparts q hqm x2 y with ⟨_, hgrq, _, hlvlq, hyq, hxq⟩
      exact Or.inr ⟨by rw [hlvlp, hlvlq], Or.inr ⟨by rw [hgrp, hgrq],
        Or.inr ⟨by rw [hyp2, hyq], Or.inl (by rw [hxp, hxq]; exact hx12)⟩⟩⟩
  · apply List.pairwise_map.mpr
    refine (List.pairwise_lt_range (nTilesY e.ifd)).imp ?_
    intro y1 y2 hy12 a ha b hb
    rcases List.mem_flatMap.mp ha with ⟨x1, _, ha2⟩
    rcases List.mem_flatMap.mp hb with ⟨x2, _, hb2⟩
    rcases List.mem_map.mp ha2 with ⟨p, hpm, rfl⟩
    rcases List.mem_map.mp hb2 with ⟨q, hqm, rfl⟩
    rcases hparts p hpm x1 y1 with ⟨_, hgrp, _, hlvlp, hyp2, _⟩
    rcases hparts q hqm x2 y2 with ⟨_, hgrq, _, hlvlq, hyq, _⟩
    exact Or.inr ⟨by rw [hlvlp, hlvlq], Or.inr ⟨by rw [hgrp, hgrq],
      Or.inl (by rw [hyp2, hyq]; exact hy12)⟩⟩

/-- Claim C1 as stated fails on `exTreeB`: with the custom interleaving
`[[0], [1]]` the code emits all of plane 0's tiles (row-major) before
any of plane 1's, so the sequence is NOT row-major `(y, x)` with the
full plane order applied per position. -/
theorem claim1_counterexample :
    ¬ List.Pairwise (claimLt exTreeB) (tiles exTreeB) := by
  intro h
  have h2 := List.pairwise_iff_getElem.mp h 1 2 (by decide) (by decide) (by decide)
  exact absurd h2 (by decide)

/-- Claim C1 (amended): for every IFD tree with duplicate-free
interleavings, the interleaver's sequence is strictly ordered by, in
lexicographic order: the resolution level (lowest first, the main image
last), then the POSITION OF THE INTERLEAVING GROUP in the level's
`PlanarInterleaving`, then row-major `(y, x)` within the group, then the
position inside the group — with the mask tile emitted whenever the
group reaches the mask index.  (So plane groups are iterated OUTSIDE the
row-major loops, not per `(y, x)`; the claim's per-position plane order
only holds for one-group partitions such as the default.)  The same
sequence `tiles t` is, by construction of `rewriteIFDTree`, consumed by
both the offset computer and the writer. -/
theorem claim1_theorem (t : IFDTree)
    (hnd : ∀ e ∈ ifdInterlacing t, e.ifd.planarInterleaving.flatten.Nodup) :
    List.Pairwise (amendLt t) (tiles t) := by
  unfold tiles
  rw [show (ifdInterlacing t).flatMap entryTiles =
    ((ifdInterlacing t).map entryTiles).flatten from rfl]
  rw [List.pairwise_flatten]
  constructor
  · intro L hL
    rcases List.mem_map.mp hL with ⟨e, he, rfl⟩
    have hR : entryTiles e =
        ((e.ifd.planarInterleaving.enum.map fun gl => groupTiles e gl.2).flatten) := by
      show entryTiles e = e.ifd.planarInterleaving.enum.flatMap fun gl => groupTiles e gl.2
      rw [show e.ifd.planarInterleaving.enum = e.ifd.planarInterleaving.enumFrom 0 from rfl,
        flatMap_enumFrom_snd (groupTiles e) e.ifd.planarInterleaving 0]
      rfl
    rw [hR, List.pairwise_flatten]
    constructor
    · intro L2 hL2
      rcases List.mem_map.mp hL2 with ⟨gl, hmem, rfl⟩
      have hget : e.ifd.planarInterleaving.get? gl.1 = some gl.2 := by
        have h3 := List.mem_enum_iff_getElem?.mp hmem
        rw [List.get?_eq_getElem?]
        exact h3
      exact pairwise_amendLt_groupTiles t e he (hnd e he) gl.1 gl.2 hget
    · apply List.pairwise_map.mpr
      refine List.Pairwise.imp_of_mem ?_ (pairwise_enum_fst e.ifd.planarInterleaving)
      intro gl1 gl2 h1 h2 hlt a ha b hb
      have hget1 : e.ifd.planarInterleaving.get? gl1.1 = some gl1.2 := by
        have h3 := List.mem_enum_iff_getElem?.mp h1
        rw [List.get?_eq_getElem?]
        exact h3
      have hget2 : e.ifd.planarInterleaving.get? gl2.1 = some gl2.2 := by
        have h3 := List.mem_enum_iff_getElem?.mp h2
        rw [List.get?_eq_getElem?]
        exact h3
      rcases (mem_groupTiles e gl1.2 a).mp ha with ⟨y1, x1, p1, _, _, hp1, rfl⟩
      rcases (mem_groupTiles e gl2.2 b).mp hb with ⟨y2, x2, p2, _, _, hp2, rfl⟩
      rcases ranks_tileAt t e he (hnd e he) gl1.1 gl1.2 hget1 p1 hp1 x1 y1 with
        ⟨_, hgr1, _, hlvl1, _, _⟩
      rcases ranks_tileAt t e he (hnd e he) gl2.1 gl2.2 hget2 p2 hp2 x2 y2 with
        ⟨_, hgr2, _, hlvl2, _, _⟩
      exact Or.inr ⟨by rw [hlvl1, hlvl2], Or.inl (by rw [hgr1, hgr2]; exact hlt)⟩
  · apply List.pairwise_map.mpr
    refine List.Pairwise.imp_of_mem ?_ (pairwise_levelRank_interlacing t)
    intro e1 e2 h1 h2 hlt a ha b hb
    have hl1 : a.lvl = e1.lvl := mem_entryTiles_lvl e1 a ha
    have hl2 : b.lvl = e2.lvl := mem_entryTiles_lvl e2 b hb
    exact Or.inl (by rw [hl1, hl2]; exact hlt)

/-- Witness for `claim1_theorem` on `exTreeB` (custom two-group
interleaving): its emission sequence is strictly `amendLt`-ordered. -/
theorem claim1_witness : List.Pairwise (amendLt exTreeB) (tiles exTreeB) :=
  claim1_theorem exTreeB (by decide)

/-- A completed assignment run writes exactly one entry per tile
reference, in order, carrying that reference's slot key and byte
count. -/
theorem assignTrace_map (g big : Bool) (t : IFDTree) :
    ∀ (refs : List TileRef) (off : Nat) (tr : List TraceEntry) (fin : Nat),
      assignTrace g big t refs off = some (tr, fin) →
      tr.map (fun e => (e.key, e.bc)) = refs.map (fun r => (refKey t r, refLen t r)) := by
  intro refs
  induction refs with
  | nil =>
    intro off tr fin h
    simp only [assignTrace, Option.some.injEq, Prod.mk.injEq] at h
    rw [← h.1]
    rfl
  | cons r rest ih =>
    intro off tr fin h
    rcases (assignTrace_cons_some g big t r rest off tr fin).mp h with
      ⟨_, _, tr2, h2, htr⟩ | ⟨_, tr2, h2, htr⟩ <;>
      · subst htr
        simp only [List.map_cons, List.cons.injEq]
        exact ⟨by trivial, ih _ tr2 fin h2⟩

/-- Every entry of a run started at a positive offset satisfies: the
written offset is zero exactly when the tile is sparse. -/
theorem assignTrace_off_iff (g big : Bool) (t : IFDTree) :
    ∀ (refs : List TileRef) (off : Nat), 0 < off →
      ∀ (tr : List TraceEntry) (fin : Nat),
        assignTrace g big t refs off = some (tr, fin) →
        ∀ e ∈ tr, (e.off = 0 ↔ e.bc = 0) := by
  intro refs
  induction refs with
  | nil =>
    intro off hoff tr fin h
    simp only [assignTrace, Option.some.injEq, Prod.mk.injEq] at h
    rw [← h.1]
    simp
  | cons r rest ih =>
    intro off hoff tr fin h e he
    rcases (assignTrace_cons_some g big t r rest off tr fin).mp h with
      ⟨hbc, _, tr2, h2, htr⟩ | ⟨hbc, tr2, h2, htr⟩
    · subst htr
      rcases List.mem_cons.mp he with rfl | he2
      · show off = 0 ↔ refLen t r = 0
        omega
      · exact ih _ (by omega) tr2 fin h2 e he2
    · subst htr
      rcases List.mem_cons.mp he with rfl | he2
      · show (0 : Nat) = 0 ↔ refLen t r = 0
        omega
      · exact ih _ hoff tr2 fin h2 e he2

/-- The array state reached by folding the trace's writes: the value at
a key is the last write to it (zero when the key was never written). -/
theorem finalOffsets_spec (tr : List TraceEntry) (k : OffKey) :
    finalOffsets tr k =
      match tr.reverse.find? (fun e2 => decide (e2.key = k)) with
      | some e2 => e2.off
      | none => 0 := by
  unfold finalOffsets
  induction tr using List.reverseRecOn with
  | nil => rfl
  | append_singleton tr e ih =>
    rw [List.foldl_append]
    simp only [List.foldl_cons, List.foldl_nil]
    rw [List.reverse_append, List.reverse_singleton, List.singleton_append, List.find?_cons]
    by_cases hk : e.key = k
    · rw [decide_eq_true hk, Function.update_apply, if_pos hk.symm]
    · rw [decide_eq_false hk, Function.update_apply, if_neg (fun hc => hk hc.symm)]
      exact ih

/-- Inversion of the offset computer's successful result: the returned
trace is a completed assignment run in the returned mode. -/
theorem computeImageryOffsets_ok_inv (g : Bool) (t : IFDTree) (big0 big : Bool)
    (tr : List TraceEntry) (fin : Nat)
    (hok : computeImageryOffsets g t big0 = .ok (big, tr, fin)) :
    bandMaskCheck t = none ∧
    assignTrace g big t (tiles t) (initialDataOffset big g t) = some (tr, fin) := by
  have htruecase : ∀ (hb : bandMaskCheck t = none),
      computeImageryOffsets g t true = .ok (big, tr, fin) →
      big = true ∧ assignTrace g big t (tiles t) (initialDataOffset big g t) = some (tr, fin) := by
    intro hb hok2
    rcases h3 : assignTrace g true t (tiles t) (initialDataOffset true g t) with _ | ⟨tr3, fin3⟩
    · exact absurd h3 (assignTrace_big_ne_none g t _ _)
    · rw [computeImageryOffsets_ok g t true tr3 fin3 hb h3] at hok2
      simp only [Except.ok.injEq, Prod.mk.injEq] at hok2
      obtain ⟨hbig, htr, hfin⟩ := hok2
      subst hbig
      subst htr
      subst hfin
      exact ⟨rfl, h3⟩
  rcases hb : bandMaskCheck t with _ | e
  · refine ⟨rfl, ?_⟩
    cases big0
    · rcases h2 : assignTrace g false t (tiles t) (initialDataOffset false g t) with _ | ⟨tr2, fin2⟩
      · rw [computeImageryOffsets_restart g t false hb h2] at hok
        exact (htruecase hb hok).2
      · rw [computeImageryOffsets_ok g t false tr2 fin2 hb h2] at hok
        simp only [Except.ok.injEq, Prod.mk.injEq] at hok
        obtain ⟨hbig, htr, hfin⟩ := hok
        subst hbig
        subst htr
        subst hfin
        exact h2
    · exact (htruecase hb hok).2
  · rw [computeImageryOffsets_error g t big0 e hb] at hok
    exact absurd hok (by simp)

/-- A list whose members are all zero yields zero under `getD`. -/
theorem getD_zero_of_all_zero (l : List Nat) (h : ∀ b ∈ l, b = 0) (i : Nat) : l.getD i 0 = 0 := by
  by_cases hi : i < l.length
  · rw [List.getD_eq_getElem?_getD, List.getElem?_eq_getElem hi]
    exact h _ (List.getElem_mem hi)
  · rw [List.getD_eq_getElem?_getD, List.getElem?_eq_none (by omega)]
    rfl

/-- Each overview position yields its entry in `ovrEntriesFrom`. -/
theorem ovrEntriesFrom_mem_of_lt (hm : Bool) :
    ∀ (l : List (IFDData × Option IFDData)) (j k : Nat), k < l.length →
      (⟨j + k + 1, (l.getD k default).1, if hm then (l.getD k default).2 else none⟩ : Entry) ∈
        ovrEntriesFrom hm j l := by
  intro l
  induction l with
  | nil => intro j k hk; cases hk
  | cons a rest ih =>
    intro j k hk
    cases k with
    | zero => exact List.mem_cons_self _ _
    | succ k2 =>
      apply List.mem_cons_of_mem
      have h2 := ih (j + 1) k2 (by simpa using hk)
      have harith : j + 1 + k2 + 1 = j + (k2 + 1) + 1 := by omega
      rw [harith] at h2
      exact h2

/-- Every level of the tree has an interleaving entry holding its IFD
pair. -/
theorem entry_exists (t : IFDTree) (lvl : Nat) (hlvl : lvl ≤ t.overviews.length) :
    ∃ e ∈ ifdInterlacing t, e.lvl = lvl ∧ e.ifd = (ifdPairAt t lvl).1 ∧
      e.mask = (if t.mainMask.isSome then (ifdPairAt t lvl).2 else none) := by
  cases lvl with
  | zero =>
    refine ⟨⟨0, t.main, if t.mainMask.isSome then t.mainMask else none⟩, ?_, rfl, ?_, ?_⟩
    · exact List.mem_append_right _ (List.mem_singleton.mpr rfl)
    · rw [ifdPairAt, if_pos rfl]
    · rw [ifdPairAt, if_pos rfl]
  | succ k =>
    have hk : k < t.overviews.length := by omega
    have hne : ¬(k + 1 = 0) := by omega
    refine ⟨⟨0 + k + 1, (t.overviews.getD k default).1,
      if t.mainMask.isSome then (t.overviews.getD k default).2 else none⟩, ?_,
      by show 0 + k + 1 = k + 1; omega, ?_, ?_⟩
    · exact List.mem_append_left _ (List.mem_reverse.mpr
        (ovrEntriesFrom_mem_of_lt t.mainMask.isSome t.overviews 0 k hk))
    · show (t.overviews.getD k default).1 = (ifdPairAt t (k + 1)).1
      rw [ifdPairAt, if_neg hne]
      simp
    · show (if t.mainMask.isSome then (t.overviews.getD k default).2 else none) =
        (if t.mainMask.isSome then (ifdPairAt t (k + 1)).2 else none)
      rw [ifdPairAt, if_neg hne]
      simp

/-- When an entry carries a mask, the interleaver's mask index is the
entry's plane count. -/
theorem entryMaskIdx_of_isSome (e : Entry) (h : e.mask.isSome = true) :
    entryMaskIdx e = (nPlanes e.ifd : Int) := by
  unfold entryMaskIdx nPlanes
  rcases hm : e.mask with _ | m
  · rw [hm] at h; cases h
  · by_cases hp : e.ifd.PlanarConfiguration = 2 <;> simp [hp]

/-- The tile's byte count is determined by its slot key: any reference
addressing imagery slot `(lvl, idx)` has the byte count stored there. -/
theorem refLen_of_key_imagery (t : IFDTree) (r : TileRef) (lvl : Nat) (idx : Nat)
    (hk : refKey t r = (lvl, false, (idx : Int))) :
    refLen t r = (ifdPairAt t lvl).1.TileByteCounts.getD idx 0 := by
  unfold refKey at hk
  simp only [Prod.mk.injEq] at hk
  obtain ⟨hlvl, hmask, hidx⟩ := hk
  unfold refLen tileLen
  have hifd : refIFD t r = (ifdPairAt t lvl).1 := by
    unfold refIFD
    rw [hmask, hlvl]
    simp
  rw [hifd]
  rw [hifd] at hidx
  rw [hidx]
  simp

/-- Mask version of `refLen_of_key_imagery`. -/
theorem refLen_of_key_mask (t : IFDTree) (r : TileRef) (lvl : Nat) (m : IFDData) (idx : Nat)
    (hm : (ifdPairAt t lvl).2 = some m)
    (hk : refKey t r = (lvl, true, (idx : Int))) :
    refLen t r = m.TileByteCounts.getD idx 0 := by
  unfold refKey at hk
  simp only [Prod.mk.injEq] at hk
  obtain ⟨hlvl, hmask, hidx⟩ := hk
  unfold refLen tileLen
  have hifd : refIFD t r = m := by
    unfold refIFD
    rw [hmask, hlvl]
    simp [hm]
  rw [hifd]
  rw [hifd] at hidx
  rw [hidx]
  simp

/-- `getD` inside the list range is a member. -/
theorem getD_mem_of_lt {α : Type} (l : List α) (i : Nat) (d : α) (h : i < l.length) :
    l.getD i d ∈ l := by
  rw [List.getD_eq_getElem?_getD, List.getElem?_eq_getElem h]
  exact List.getElem_mem h

/-- Any level pair is the main pair, a stored overview pair, or the
out-of-range default. -/
theorem pairAt_cases (t : IFDTree) (lvl : Nat) :
    ifdPairAt t lvl = (t.main, t.mainMask) ∨ ifdPairAt t lvl ∈ t.overviews ∨
      ifdPairAt t lvl = default := by
  unfold ifdPairAt
  by_cases h0 : lvl = 0
  · left; rw [if_pos h0]
  · rw [if_neg h0]
    by_cases hr : lvl - 1 < t.overviews.length
    · right; left
      exact getD_mem_of_lt _ _ _ hr
    · right; right
      rw [List.getD_eq_getElem?_getD, List.getElem?_eq_none (by omega)]
      rfl

/-- The IFD addressed by any tile reference is a directory of the tree,
or the default record (empty tile list) for out-of-tree references. -/
theorem refIFD_mem_or_default (t : IFDTree) (r : TileRef) :
    refIFD t r ∈ dirSeq t ∨ refIFD t r = default := by
  unfold refIFD
  rcases pairAt_cases t r.lvl with h | h | h
  · rw [h]
    by_cases hM : r.isMask
    · rw [if_pos hM]
      rcases hm : t.mainMask with _ | m
      · right; rfl
      · left; simp [dirSeq, hm]
    · rw [if_neg hM]
      left; simp [dirSeq]
  · rcases hp : ifdPairAt t r.lvl with ⟨o, om⟩
    rw [hp] at h
    by_cases hM : r.isMask
    · rw [if_pos hM]
      rcases hm : om with _ | m
      · right; rfl
      · left
        rw [hm] at h
        refine List.mem_cons_of_mem _ (List.mem_append_right _ ?_)
        exact List.mem_flatMap.mpr ⟨(o, some m), h, by simp⟩
    · rw [if_neg hM]
      left
      refine List.mem_cons_of_mem _ (List.mem_append_right _ ?_)
      exact List.mem_flatMap.mpr ⟨(o, om), h, by simp⟩
  · rw [h]
    by_cases hM : r.isMask
    · rw [if_pos hM]; right; rfl
    · rw [if_neg hM]; right; rfl

/-- When every directory of the tree has only zero byte counts, every
tile reference is sparse. -/
theorem refLen_zero_of_all_zero (t : IFDTree)
    (hz : ∀ d ∈ dirSeq t, ∀ b ∈ d.TileByteCounts, b = 0) (r : TileRef) :
    refLen t r = 0 := by
  have hd : ∀ b ∈ (refIFD t r).TileByteCounts, b = 0 := by
    rcases refIFD_mem_or_default t r with h | h
    · exact hz _ h
    · rw [h]
      intro b hb
      rw [show (default : IFDData).TileByteCounts = [] from rfl] at hb
      cases hb
  unfold refLen tileLen
  split
  · exact getD_zero_of_all_zero _ hd _
  · rfl

/-- `flatMap` of a pointwise-empty function is empty. -/
theorem flatMap_eq_nil_of_forall {α β : Type} (l : List α) (f : α → List β)
    (h : ∀ a ∈ l, f a = []) : l.flatMap f = [] := by
  induction l with
  | nil => rfl
  | cons a rest ih =>
    rw [List.flatMap_cons, h a (List.mem_cons_self a rest), List.nil_append]
    exact ih fun a2 ha2 => h a2 (List.mem_cons_of_mem _ ha2)

/-- The starting data offset is positive (it includes the 8- or 16-byte
header). -/
theorem initialDataOffset_pos (big g : Bool) (t : IFDTree) :
    0 < initialDataOffset big g t := by
  unfold initialDataOffset
  cases big <;> cases g <;> simp <;> split <;> omega

/-- The well-formedness facts of the pair at any level within the
tree. -/
theorem WF_pairAt (t : IFDTree) (hwf : WF t) (lvl : Nat) (hlvl : lvl ≤ t.overviews.length) :
    WFifd (ifdPairAt t lvl).1 t.mainMask.isSome ∧
    (ifdPairAt t lvl).2.isSome = t.mainMask.isSome ∧
    WFmaskOpt (ifdPairAt t lvl).1 (ifdPairAt t lvl).2 := by
  by_cases h0 : lvl = 0
  · subst h0
    rw [show ifdPairAt t 0 = (t.main, t.mainMask) from by rw [ifdPairAt, if_pos rfl]]
    exact ⟨hwf.1, rfl, hwf.2.1⟩
  · have hr : lvl - 1 < t.overviews.length := by omega
    have hmem : t.overviews.getD (lvl - 1) default ∈ t.overviews := getD_mem_of_lt _ _ _ hr
    have h := hwf.2.2 _ hmem
    rw [show ifdPairAt t lvl = t.overviews.getD (lvl - 1) default from by
      rw [ifdPairAt, if_neg h0]]
    exact h

/-- Every entry of a completed assignment run carries the key and byte
count of one of the input tile references. -/
theorem assignTrace_elts (g big : Bool) (t : IFDTree) :
    ∀ (refs : List TileRef) (off : Nat) (tr : List TraceEntry) (fin : Nat),
      assignTrace g big t refs off = some (tr, fin) →
      ∀ e ∈ tr, ∃ r ∈ refs, e.key = refKey t r ∧ e.bc = refLen t r := by
  intro refs
  induction refs with
  | nil =>
    intro off tr fin h e he
    simp only [assignTrace, Option.some.injEq, Prod.mk.injEq] at h
    rw [← h.1] at he
    cases he
  | cons r rest ih =>
    intro off tr fin h e he
    rcases (assignTrace_cons_some g big t r rest off tr fin).mp h with
      ⟨hbc, hbig, tr2, h2, htr⟩ | ⟨hbc, tr2, h2, htr⟩ <;> subst htr <;>
      rcases List.mem_cons.mp he with he1 | he2
    · exact ⟨r, List.mem_cons_self r rest, by rw [he1], by rw [he1]⟩
    · obtain ⟨r2, hr2, hk, hb⟩ := ih _ _ _ h2 e he2
      exact ⟨r2, List.mem_cons_of_mem _ hr2, hk, hb⟩
    · exact ⟨r, List.mem_cons_self r rest, by rw [he1], by rw [he1]⟩
    · obtain ⟨r2, hr2, hk, hb⟩ := ih _ _ _ h2 e he2
      exact ⟨r2, List.mem_cons_of_mem _ hr2, hk, hb⟩

/-- Coverage: in a well-formed tree every in-range imagery slot
`(lvl, idx)` is addressed by some tile of the interleave sequence. -/
theorem coverage_imagery (t : IFDTree) (hwf : WF t) (lvl : Nat)
    (hlvl : lvl ≤ t.overviews.length) (idx : Nat)
    (hidx : idx < (ifdPairAt t lvl).1.TileByteCounts.length) :
    ∃ r ∈ tiles t, refKey t r = (lvl, false, (idx : Int)) := by
  obtain ⟨⟨hlen, hcov⟩, hsome, hmopt⟩ := WF_pairAt t hwf lvl hlvl
  rw [hlen] at hidx
  have hxy : 0 < nTilesX (ifdPairAt t lvl).1 * nTilesY (ifdPairAt t lvl).1 := by
    rcases Nat.eq_zero_or_pos (nTilesX (ifdPairAt t lvl).1 * nTilesY (ifdPairAt t lvl).1) with h | h
    · rw [h, Nat.mul_zero] at hidx; omega
    · exact h
  have hx0 : 0 < nTilesX (ifdPairAt t lvl).1 := by
    rcases Nat.eq_zero_or_pos (nTilesX (ifdPairAt t lvl).1) with h | h
    · rw [h, Nat.zero_mul] at hxy; omega
    · exact h
  set d := (ifdPairAt t lvl).1 with hd
  set p := idx / (nTilesX d * nTilesY d) with hpdef
  set rem := idx % (nTilesX d * nTilesY d) with hremdef
  set y := rem / nTilesX d with hydef
  set x := rem % nTilesX d with hxdef
  have hp : p < nPlanes d := (Nat.div_lt_iff_lt_mul hxy).mpr hidx
  have hrem : rem < nTilesX d * nTilesY d := Nat.mod_lt _ hxy
  have hy : y < nTilesY d := by
    refine (Nat.div_lt_iff_lt_mul hx0).mpr ?_
    calc rem < nTilesX d * nTilesY d := hrem
      _ = nTilesY d * nTilesX d := Nat.mul_comm _ _
  have hxlt : x < nTilesX d := Nat.mod_lt _ hx0
  have hpmem : (p : Int) ∈ d.planarInterleaving.flatten :=
    hcov p (Nat.lt_of_lt_of_le hp (Nat.le_add_right _ _))
  obtain ⟨l1, hl1mem, hpml⟩ := List.mem_flatten.mp hpmem
  obtain ⟨e, hemem, helvl, heifd, hemask⟩ := entry_exists t lvl hlvl
  have hpe : (p : Int) ≠ entryMaskIdx e := by
    rcases hm2 : e.mask with _ | m
    · have hneg : entryMaskIdx e = -1 := by
        unfold entryMaskIdx
        rw [hm2]
      rw [hneg]
      intro hc
      have hge : (0 : Int) ≤ (p : Int) := Int.natCast_nonneg p
      rw [hc] at hge
      norm_num at hge
    · have hval := entryMaskIdx_of_isSome e (by rw [hm2]; rfl)
      rw [hval, heifd, ← hd]
      intro hc
      have : p = nPlanes d := by exact_mod_cast hc
      omega
  refine ⟨tileAt e (entryMaskIdx e) x y (p : Int), ?_, ?_⟩
  · unfold tiles
    refine List.mem_flatMap.mpr ⟨e, hemem, ?_⟩
    unfold entryTiles
    refine List.mem_flatMap.mpr ⟨l1, by rw [heifd, ← hd]; exact hl1mem, ?_⟩
    unfold groupTiles
    refine List.mem_flatMap.mpr ⟨y, List.mem_range.mpr (by rw [heifd, ← hd]; exact hy), ?_⟩
    refine List.mem_flatMap.mpr ⟨x, List.mem_range.mpr (by rw [heifd, ← hd]; exact hxlt), ?_⟩
    exact List.mem_map.mpr ⟨(p : Int), hpml, rfl⟩
  · rw [tileAt, if_pos hpe]
    have hIFD : refIFD t ⟨e.lvl, false, x, y, (p : Int)⟩ = d := by
      show (if false = true then _ else (ifdPairAt t e.lvl).1) = d
      rw [if_neg (by simp), helvl]
    show (e.lvl, false, tileIdx (refIFD t ⟨e.lvl, false, x, y, (p : Int)⟩) x y (p : Int)) =
      (lvl, false, (idx : Int))
    rw [hIFD, helvl]
    refine congrArg _ (congrArg _ ?_)
    have harith : nTilesX d * nTilesY d * p + nTilesX d * y + x = idx := by
      have h1 := Nat.div_add_mod idx (nTilesX d * nTilesY d)
      have h2 := Nat.div_add_mod rem (nTilesX d)
      rw [← hpdef, ← hremdef] at h1
      rw [← hydef, ← hxdef] at h2
      linarith [h1, h2]
    have hcast : ((nTilesX d * nTilesY d * p + nTilesX d * y + x : Nat) : Int) = (idx : Int) := by
      exact_mod_cast harith
    push_cast at hcast
    unfold tileIdx
    linarith [hcast]

/-- Coverage: in a well-formed tree every in-range mask slot
`(lvl, idx)` is addressed by some tile of the interleave sequence. -/
theorem coverage_mask (t : IFDTree) (hwf : WF t) (lvl : Nat)
    (hlvl : lvl ≤ t.overviews.length) (m : IFDData)
    (hm : (ifdPairAt t lvl).2 = some m) (idx : Nat)
    (hidx : idx < m.TileByteCounts.length) :
    ∃ r ∈ tiles t, refKey t r = (lvl, true, (idx : Int)) := by
  obtain ⟨⟨hlen, hcov⟩, hsome, hmopt⟩ := WF_pairAt t hwf lvl hlvl
  have hmm : t.mainMask.isSome = true := by rw [← hsome, hm]; rfl
  have hmask : WFmask (ifdPairAt t lvl).1 m := by
    have := hmopt
    unfold WFmaskOpt at this
    rw [hm] at this
    exact this
  obtain ⟨hmx, hmy, hmlen⟩ := hmask
  rw [hmlen] at hidx
  set d := (ifdPairAt t lvl).1 with hd
  have hx0 : 0 < nTilesX d := by
    rcases Nat.eq_zero_or_pos (nTilesX d) with h | h
    · rw [h, Nat.zero_mul] at hidx; omega
    · exact h
  set y := idx / nTilesX d with hydef
  set x := idx % nTilesX d with hxdef
  have hy : y < nTilesY d := by
    refine (Nat.div_lt_iff_lt_mul hx0).mpr ?_
    calc idx < nTilesX d * nTilesY d := hidx
      _ = nTilesY d * nTilesX d := Nat.mul_comm _ _
  have hxlt : x < nTilesX d := Nat.mod_lt _ hx0
  have hpmem : ((nPlanes d : Nat) : Int) ∈ d.planarInterleaving.flatten := by
    refine hcov (nPlanes d) ?_
    rw [hmm]
    simp
  obtain ⟨l1, hl1mem, hpml⟩ := List.mem_flatten.mp hpmem
  obtain ⟨e, hemem, helvl, heifd, hemask⟩ := entry_exists t lvl hlvl
  have hemask2 : e.mask = some m := by
    rw [hemask, if_pos hmm, hm]
  have hmi : entryMaskIdx e = (nPlanes d : Int) := by
    rw [entryMaskIdx_of_isSome e (by rw [hemask2]; rfl), heifd, ← hd]
  refine ⟨tileAt e (entryMaskIdx e) x y ((nPlanes d : Nat) : Int), ?_, ?_⟩
  · unfold tiles
    refine List.mem_flatMap.mpr ⟨e, hemem, ?_⟩
    unfold entryTiles
    refine List.mem_flatMap.mpr ⟨l1, by rw [heifd, ← hd]; exact hl1mem, ?_⟩
    unfold groupTiles
    refine List.mem_flatMap.mpr ⟨y, List.mem_range.mpr (by rw [heifd, ← hd]; exact hy), ?_⟩
    refine List.mem_flatMap.mpr ⟨x, List.mem_range.mpr (by rw [heifd, ← hd]; exact hxlt), ?_⟩
    exact List.mem_map.mpr ⟨((nPlanes d : Nat) : Int), hpml, rfl⟩
  · rw [tileAt, if_neg (by rw [hmi]; exact fun hc => hc rfl)]
    have hIFD : refIFD t ⟨e.lvl, true, x, y, 0⟩ = m := by
      show (if true = true then ((ifdPairAt t e.lvl).2).getD default else _) = m
      rw [if_pos rfl, helvl, hm]
      rfl
    show (e.lvl, true, tileIdx (refIFD t ⟨e.lvl, true, x, y, 0⟩) x y 0) =
      (lvl, true, (idx : Int))
    rw [hIFD, helvl]
    refine congrArg _ (congrArg _ ?_)
    have harith : nTilesX d * y + x = idx := by
      have h1 := Nat.div_add_mod idx (nTilesX d)
      rw [← hydef, ← hxdef] at h1
      linarith [h1]
    have hcast : ((nTilesX d * y + x : Nat) : Int) = (idx : Int) := by
      exact_mod_cast harith
    push_cast at hcast
    unfold tileIdx
    rw [hmx, hmy]
    linarith [hcast]

/-- **C7.** For every IFD of a well-formed tree and every in-range tile
index, the tile byte count is zero exactly when the offset the computer
stored for that slot is zero (first conjunct for imagery IFDs, second
for mask IFDs); the writer emits no bytes for a sparse tile; and a tree
whose byte counts are all zero yields an empty tile-body stream. -/
theorem claim7_theorem (g big0 : Bool) (t : IFDTree) (hwf : WF t)
    (mode : Bool) (tr : List TraceEntry) (fin : Nat)
    (hok : computeImageryOffsets g t big0 = .ok (mode, tr, fin)) :
    (∀ lvl ≤ t.overviews.length, ∀ idx < (ifdPairAt t lvl).1.TileByteCounts.length,
       ((ifdPairAt t lvl).1.TileByteCounts.getD idx 0 = 0 ↔
         finalOffsets tr (lvl, false, (idx : Int)) = 0)) ∧
    (∀ lvl ≤ t.overviews.length, ∀ m, (ifdPairAt t lvl).2 = some m →
       ∀ idx < m.TileByteCounts.length,
         (m.TileByteCounts.getD idx 0 = 0 ↔
           finalOffsets tr (lvl, true, (idx : Int)) = 0)) ∧
    (∀ (bodies : OffKey → List Nat), ∀ r ∈ tiles t, refLen t r = 0 →
       emitTileBytes g (refLen t r) (bodies (refKey t r)) = []) ∧
    ((∀ d ∈ dirSeq t, ∀ b ∈ d.TileByteCounts, b = 0) →
       ∀ (bodies : OffKey → List Nat), tileStream g t bodies = []) := by
  obtain ⟨hb, hrun⟩ := computeImageryOffsets_ok_inv g t big0 mode tr fin hok
  have hoffiff := assignTrace_off_iff g mode t (tiles t) _ (initialDataOffset_pos mode g t)
    tr fin hrun
  have hmap := assignTrace_map g mode t (tiles t) _ tr fin hrun
  have helts := assignTrace_elts g mode t (tiles t) _ tr fin hrun
  have hkey : ∀ (K : OffKey), (∃ r ∈ tiles t, refKey t r = K) → ∃ e ∈ tr, e.key = K := by
    rintro K ⟨r, hr, hk⟩
    have hmem : (refKey t r, refLen t r) ∈ tr.map (fun e => (e.key, e.bc)) := by
      rw [hmap]
      exact List.mem_map_of_mem _ hr
    obtain ⟨e, he, heq⟩ := List.mem_map.mp hmem
    have h1 : e.key = refKey t r := congrArg Prod.fst heq
    exact ⟨e, he, by rw [h1, hk]⟩
  have hmain : ∀ (K : OffKey) (bcK : Nat),
      (∃ r ∈ tiles t, refKey t r = K) →
      (∀ r ∈ tiles t, refKey t r = K → refLen t r = bcK) →
      (bcK = 0 ↔ finalOffsets tr K = 0) := by
    intro K bcK hex huniq
    obtain ⟨e, he, hek⟩ := hkey K hex
    have hrev : e ∈ tr.reverse := List.mem_reverse.mpr he
    rcases hfind : tr.reverse.find? (fun e2 => decide (e2.key = K)) with _ | e0
    · have h2 := List.find?_eq_none.mp hfind e hrev
      simp [hek] at h2
    · have he0mem : e0 ∈ tr := List.mem_reverse.mp (List.mem_of_find?_eq_some hfind)
      have he0key : e0.key = K := by
        have := List.find?_some hfind
        simpa using this
      obtain ⟨r0, hr0, hr0k, hr0b⟩ := helts e0 he0mem
      have hbc : e0.bc = bcK := by
        rw [hr0b]
        exact huniq r0 hr0 (hr0k.symm.trans he0key)
      rw [finalOffsets_spec, hfind]
      show bcK = 0 ↔ e0.off = 0
      rw [← hbc]
      exact (hoffiff e0 he0mem).symm
  refine ⟨?_, ?_, ?_, ?_⟩
  · intro lvl hlvl idx hidx
    refine hmain (lvl, false, (idx : Int)) ((ifdPairAt t lvl).1.TileByteCounts.getD idx 0)
      (coverage_imagery t hwf lvl hlvl idx hidx) ?_
    intro r hr hk
    exact refLen_of_key_imagery t r lvl idx hk
  · intro lvl hlvl m hm idx hidx
    refine hmain (lvl, true, (idx : Int)) (m.TileByteCounts.getD idx 0)
      (coverage_mask t hwf lvl hlvl m hm idx hidx) ?_
    intro r hr hk
    exact refLen_of_key_mask t r lvl m idx hm hk
  · intro bodies r hr h0
    rw [h0]
    rfl
  · intro hz bodies
    unfold tileStream
    refine flatMap_eq_nil_of_forall _ _ ?_
    intro r hr
    rw [refLen_zero_of_all_zero t hz r]
    rfl

/-- Witness for C7 on the two-tile tree `exTreeA`: slot 0 of the main
IFD has byte count 5 ≠ 0 and accordingly a non-zero computed offset. -/
theorem claim7_witness :
    exMainA.TileByteCounts.getD 0 0 = 0 ↔ finalOffsets exRun7.1 (0, false, (0 : Int)) = 0 := by
  have hok : computeImageryOffsets false exTreeA false = .ok (false, exRun7.1, exRun7.2) :=
    computeImageryOffsets_ok false exTreeA false exRun7.1 exRun7.2 (by rfl) (by rfl)
  exact (claim7_theorem false false exTreeA (by decide) false exRun7.1 exRun7.2 hok).1
    0 (by decide) 0 (by decide)

end Cogger
